import Mathlib

/-
Verification of the Arachne directed-hypergraph core (src/arachne/model.py).

The Python classes `Node`, `DirectedHypergraph` and `StringDirectedHypergraph`
are shallowly embedded as Lean structures and pure functions.  Modelling
conventions:
  * node identifiers are `Nat`; the freshness of `uuid4` is modelled by a
    counter `nextId` carried in the graph, together with a well-formedness
    predicate saying every stored identifier is below the counter;
  * the insertion-ordered Python dict `self.nodes` is an association list
    `List (Nat × Node α)`; iteration order is list order;
  * string contents are `List Char`; `metadata` (a dict of opaque values in
    the source) is an association list `List (String × String)`;
  * operations that can raise (`KeyError` on a missing node id, `IndexError`
    on an out-of-range index, `TypeError` from `sorted(None)`) or that recurse
    without a structural bound return `Option`, with `none` for a raised
    exception or exhausted recursion fuel; recursive procedures take an
    explicit fuel argument;
  * `set` intersection (`list(set(a) & set(b))`) has implementation-defined
    iteration order in Python; it is modelled as a first-operand-ordered
    deduplicated filter.
-/

namespace Arachne

set_option linter.unusedSectionVars false

/-- A node of the hypergraph: content, metadata and the cached ancestry
paths, mirroring the `Node` dataclass. -/
structure Node (α : Type) where
  content : α
  metadata : List (String × String)
  ancestry : List (List Nat)
deriving Repr, DecidableEq

/-- The `DirectedHypergraph` state: the insertion-ordered node mapping, the
hyperedge sequence, and the counter modelling `uuid4` freshness. -/
structure Graph (α : Type) where
  nodes : List (Nat × Node α)
  edges : List (List Nat)
  nextId : Nat
deriving Repr, DecidableEq

variable {α : Type} [DecidableEq α]

/-- Lookup in the node mapping (`self.nodes[i]`, returning `none` where the
source raises `KeyError`). -/
def findNode (ns : List (Nat × Node α)) (i : Nat) : Option (Node α) :=
  match ns with
  | [] => none
  | (k, v) :: rest => if k = i then some v else findNode rest i

/-- `add_node`: allocate a fresh identifier, store the node, return the id. -/
def add_node (g : Graph α) (n : Node α) : Nat × Graph α :=
  (g.nextId, { g with nodes := g.nodes ++ [(g.nextId, n)], nextId := g.nextId + 1 })

/-- Append one ancestry entry to the node at `i`
(`self.nodes[i].ancestry.append(entry)`; `none` models the `KeyError` on a
missing id). -/
def appendAnc (ns : List (Nat × Node α)) (i : Nat) (entry : List Nat) :
    Option (List (Nat × Node α)) :=
  if (findNode ns i).isSome then
    some (ns.map (fun p =>
      if p.1 = i then (p.1, { p.2 with ancestry := p.2.ancestry ++ [entry] }) else p))
  else none

/-- The loop of `add_edge`: for each index `i` in the given list, append the
reversed prefix `edge[:i][::-1]` to the ancestry of the node at `edge[i]`. -/
def ancLoop (e : List Nat) : List (Nat × Node α) → List Nat → Option (List (Nat × Node α))
  | ns, [] => some ns
  | ns, i :: is => do
    let ns2 ← appendAnc ns (e.getD i 0) ((e.take i).reverse)
    ancLoop e ns2 is

/-- `add_edge`: append the edge, then populate ancestry caches — interior
positions `1 .. len-2` in the loop, then the tail position.  The source
appends the edge before touching ancestries, so a `KeyError` would leave the
edge stored; that partially-mutated state is collapsed into `none` here.  An
empty edge raises `IndexError` in the source (`edge[-1]`), hence `none`. -/
def add_edge (g : Graph α) (e : List Nat) : Option (Graph α) := do
  let ns ← ancLoop e g.nodes (List.range' 1 (e.length - 2))
  let lst ← e.getLast?
  let ns2 ← appendAnc ns lst e.dropLast.reverse
  pure { g with edges := g.edges ++ [e], nodes := ns2 }

/-- Reset the ancestry cache of the node at `i` to `[]`, a no-op when `i` is
not stored (the source guards with `if node_id in self.nodes`). -/
def clearAnc (ns : List (Nat × Node α)) (i : Nat) : List (Nat × Node α) :=
  ns.map (fun p => if p.1 = i then (p.1, { p.2 with ancestry := [] }) else p)

/-- `remove_edge`: erase one value-equal occurrence of the edge from the edge
sequence (no-op when absent), then clear the whole ancestry cache of every
stored node at a non-head position. -/
def remove_edge (g : Graph α) (e : List Nat) : Graph α :=
  { g with edges := g.edges.erase e, nodes := e.tail.foldl clearAnc g.nodes }

/-- `remove_node`: delete the node, then remove (via `remove_edge`) every
stored hyperedge containing its identifier at any position. -/
def remove_node (g : Graph α) (i : Nat) : Graph α :=
  if (findNode g.nodes i).isSome then
    let g1 : Graph α := { g with nodes := g.nodes.filter (fun p => !(p.1 == i)) }
    let ets := g1.edges.filter (fun e => e.contains i)
    ets.foldl remove_edge g1
  else g

/-- `get_roots`: identifiers of the nodes whose ancestry cache is empty, in
node-mapping (insertion) order. -/
def get_roots (g : Graph α) : List Nat :=
  (g.nodes.filter (fun p => p.2.ancestry.isEmpty)).map (·.1)

/-- One step of the `get_children` loop over the stored hyperedges.  The
source indexes `edge[0]` unconditionally and `edge[1]` on a match, raising
`IndexError` on too-short edges (`none` here). -/
def childStep (i : Nat) (acc : List Nat) (e : List Nat) : Option (List Nat) :=
  match e with
  | [] => none
  | [x] => if x = i then none else some acc
  | x :: y :: _ => if x = i then some (acc ++ [y]) else some acc

/-- `get_children`: every `edge[1]` across stored hyperedges with
`edge[0] == i`. -/
def get_children (g : Graph α) (i : Nat) : Option (List Nat) :=
  g.edges.foldlM (childStep i) []

/-- `_get_ancestries`, with explicit fuel: `[[]]` for an empty ancestry
cache, otherwise the concatenation, entry by entry, of `entry ++ path` for
each recursively obtained path of the entry's last element (the nested
`for` loops are a right fold producing the same appends in the same order;
`path[-1]` on an empty entry raises `IndexError`, hence `none`). -/
def getAncestriesF : Nat → Graph α → Nat → Option (List (List Nat))
  | 0, _, _ => none
  | f + 1, g, i =>
    match findNode g.nodes i with
    | none => none
    | some nd =>
      if nd.ancestry = [] then some [[]]
      else
        nd.ancestry.foldr
          (fun p acc =>
            p.getLast?.bind (fun l =>
              (getAncestriesF f g l).bind (fun recs =>
                acc.bind (fun rest => some (recs.map (fun r => p ++ r) ++ rest)))))
          (some [])

/-- The entry loop of `_get_ancestries` as a standalone function (the same
fold as in the recursive case of `getAncestriesF`). -/
def ancPaths (f : Nat) (g : Graph α) (ps : List (List Nat)) : Option (List (List Nat)) :=
  ps.foldr
    (fun p acc =>
      p.getLast?.bind (fun l =>
        (getAncestriesF f g l).bind (fun recs =>
          acc.bind (fun rest => some (recs.map (fun r => p ++ r) ++ rest)))))
    (some [])

/-- `get_ancestry`: `[[i]]` for a root, otherwise every `_get_ancestries`
path prefixed with `i`. -/
def get_ancestry (f : Nat) (g : Graph α) (i : Nat) : Option (List (List Nat)) :=
  if i ∈ get_roots g then some [[i]]
  else (getAncestriesF f g i).map (fun ps => ps.map (fun p => i :: p))

/-- `get_node_id`: first stored identifier whose node is value-equal
(`__eq__` compares content and ancestry). -/
def get_node_id (g : Graph α) (n : Node α) : Option Nat :=
  match g.nodes.find? (fun p => p.2.content == n.content && p.2.ancestry == n.ancestry) with
  | some p => some p.1
  | none => none

/-- `len(self.nodes[x].ancestry)`, the sort key of `common_ancestor`.  The
source raises `KeyError` on an unstored id; the key is only ever computed on
ids drawn from stored lineages, defaulted to `0` here. -/
def ancLen (g : Graph α) (x : Nat) : Nat :=
  match findNode g.nodes x with
  | some n => n.ancestry.length
  | none => 0

/-- `list(set(m) & set(a))`.  Python's set iteration order is
implementation-defined; the model fixes first-operand order, deduplicated. -/
def interSet (m a : List Nat) : List Nat :=
  (m.filter (fun x => a.contains x)).dedup

/-- The inner loop of `common_ancestor` over one node's lineages: the first
lineage seeds the accumulator, every further lineage is intersected in. -/
def lineageFold (mca : Option (List Nat)) (ancs : List (List Nat)) : Option (List Nat) :=
  ancs.foldl (fun mca a =>
    match mca with
    | none => some a
    | some m => some (interSet m a)) mca

/-- The outer loop of `common_ancestor` over the queried ids, threading the
running intersection (`none` = not yet seeded); the outer `Option` models a
failing `get_ancestry`. -/
def mcaFold (f : Nat) (g : Graph α) (ids : List Nat) : Option (Option (List Nat)) :=
  ids.foldlM (fun mca i => (get_ancestry f g i).map (fun ancs => lineageFold mca ancs))
    none

/-- `common_ancestor`: fold every lineage of every queried node through set
intersection, sort the survivors by ancestry-cache length ascending
(`sorted` is stable; modelled by stable insertion sort), drop the queried
ids and return the last element.  Outer `none` models the `TypeError` of
`sorted(None)` (no lineage at all), the `IndexError` of `[-1]` on an empty
filtered list, or a failing `get_ancestry`; inner `none` is the `None`
sentinel. -/
def common_ancestor (f : Nat) (g : Graph α) (ids : List Nat) : Option (Option Nat) :=
  (mcaFold f g ids).bind (fun mca =>
    match mca with
    | none => none
    | some m =>
      let ms := m.insertionSort (fun x y => ancLen g x ≤ ancLen g y)
      if ms.isEmpty then some none
      else
        match (ms.filter (fun x => !(ids.contains x))).getLast? with
        | some r => some (some r)
        | none => none)

/-- `_check_for_cycles`: depth-first walk that threads the single (mutated)
`visited` list through the whole traversal and reports `true` on meeting an
already-visited node.  The child loop is a fold carrying the
(found, visited) pair; once `found` holds the remaining children are
skipped, matching the early `return True`. -/
def dfsCheck : Nat → Graph α → Nat → List Nat → Option (Bool × List Nat)
  | 0, _, _, _ => none
  | f + 1, g, i, visited =>
    if i ∈ visited then some (true, visited)
    else
      (get_children g i).bind (fun cs =>
        cs.foldlM (fun st c => if st.1 then some st else dfsCheck f g c st.2)
          (false, visited ++ [i]))

/-- `check_for_cycles`: run the DFS from every root, each with a fresh
`visited` list (skipping the rest once one reports `true`, matching the
early `return True`); when no DFS reports a revisit, `true` exactly when
there are no roots at all. -/
def check_for_cycles (f : Nat) (g : Graph α) : Option Bool :=
  ((get_roots g).foldlM
      (fun (b : Bool) r => if b then some b else (dfsCheck f g r []).map Prod.fst)
      false).map
    (fun b => if b then true else (get_roots g).length == 0)

/-- The content type of `StringDirectedHypergraph` nodes: a Python `str`
as a list of characters. -/
abbrev SGraph := Graph (List Char)

/-- `StringDirectedHypergraph.merge`: concatenate the contents of the given
nodes in order into one fresh node (empty metadata and ancestry), then
remove every input node; `none` models the `KeyError` when an input id is
not stored. -/
def merge (g : SGraph) (ids : List Nat) : Option (Nat × SGraph) := do
  let nds ← ids.mapM (fun i => findNode g.nodes i)
  let mergedContent := (nds.map (fun n => n.content)).flatten
  let (mid, g1) := add_node g ⟨mergedContent, [], []⟩
  pure (mid, ids.foldl remove_node g1)

/-- The slicing loop of `split`: Python `content[start:end]` slices at each
sorted boundary, then the final `content[start:]` slice. -/
def slicePieces (c : List Char) : Nat → List Nat → List (List Char)
  | start, [] => [c.drop start]
  | start, e :: rest => ((c.take e).drop start) :: slicePieces c e rest

/-- The node-creation loop of `split`: add one fresh node per piece,
collecting the new identifiers in order. -/
def addNodes (g : SGraph) (pieces : List (List Char)) : List Nat × SGraph :=
  pieces.foldl (fun acc p =>
    let (nid, g1) := add_node acc.2 ⟨p, [], []⟩
    (acc.1 ++ [nid], g1)) ([], g)

/-- The consecutive-pair loop of `split`: a length-2 hyperedge between each
adjacent pair of new pieces. -/
def linkPairs : SGraph → List Nat → Option SGraph
  | g, a :: b :: rest => do
    let g1 ← add_edge g [a, b]
    linkPairs g1 (b :: rest)
  | g, _ => pure g

/-- `StringDirectedHypergraph.split` with the boundary already normalised to
a list (`isinstance(boundary, int)` wraps a single offset): sort the
boundaries, create one node per contiguous slice, re-add each ancestry entry
of the original node as a hyperedge into the first piece, link consecutive
pieces, re-parent every child under the last piece, and remove the original
node last. -/
def split (g : SGraph) (i : Nat) (boundary : List Nat) : Option (List Nat × SGraph) := do
  let nd ← findNode g.nodes i
  let bs := boundary.insertionSort (· ≤ ·)
  let pieces := slicePieces nd.content 0 bs
  let sg := addNodes g pieces
  let sids := sg.1
  let g1 := sg.2
  let g2 ←
    if nd.ancestry.isEmpty then pure g1
    else nd.ancestry.foldlM (fun g a => add_edge g (a.reverse ++ [sids.headD 0])) g1
  let g3 ← linkPairs g2 sids
  let children ← get_children g3 i
  let g4 ← children.foldlM (fun g c => add_edge g [sids.getLastD 0, c]) g3
  pure (sids, remove_node g4 i)

/-- Python `needle in hay` on strings: contiguous-substring test. -/
def infixOf (needle : List Char) : List Char → Bool
  | [] => needle.isEmpty
  | c :: rest => needle.isPrefixOf (c :: rest) || infixOf needle rest

/-- The inner loop of `content_lineage`: scan the enumerated lineages of a
suffix-matching node for one whose concatenated contents (in root-to-node
order) occur inside the target; `none` models a `KeyError` while fetching
contents, `some none` a scan that found no match. -/
def clFind (g : SGraph) (content : List Char) :
    List (List Nat) → Option (Option (List Nat))
  | [] => some none
  | a :: as => do
    let nds ← a.reverse.mapM (fun j => findNode g.nodes j)
    if infixOf ((nds.map (fun n => n.content)).flatten) content then
      pure (some a.reverse)
    else clFind g content as

/-- The outer loop of `content_lineage` over the node mapping in insertion
order. -/
def clGo (f : Nat) (g : SGraph) (content : List Char) :
    List (Nat × Node (List Char)) → Option (List Nat)
  | [] => some []
  | (i, nd) :: rest =>
    if nd.content.isSuffixOf content then do
      let ancs ← get_ancestry f g i
      let res ← clFind g content ancs
      match res with
      | some a => pure a
      | none => clGo f g content rest
    else clGo f g content rest

/-- `content_lineage`: first node whose content is a suffix of the target
and that owns a lineage whose concatenated contents occur inside the target;
`[]` when no node and lineage match. -/
def content_lineage (f : Nat) (g : SGraph) (content : List Char) : Option (List Nat) :=
  clGo f g content g.nodes

/-- `_refactor`: merge the node with each equal-content child, then with a
single child, then recurse into the freshly recomputed children (a
sequential fold).  `none` models a `KeyError` (in particular the double
merge after an equal-content merge of an only child) or exhausted fuel. -/
def refactorNode : Nat → SGraph → Nat → Option SGraph
  | 0, _, _ => none
  | f + 1, g, i => do
    let nd ← findNode g.nodes i
    let children ← get_children g i
    let g1 ←
      if children.length > 0 then
        children.foldlM (fun g c => do
          let cnd ← findNode g.nodes c
          if cnd.content = nd.content then do
            let (_, g2) ← merge g [i, c]
            pure g2
          else pure g) g
      else pure g
    let g2 ←
      if children.length = 1 then do
        let (_, g3) ← merge g1 [i, children.getD 0 0]
        pure g3
      else pure g1
    let cs ← get_children g2 i
    cs.foldlM (fun g c => refactorNode f g c) g2

/-- `refactor`: run `_refactor` from every root of the entry state. -/
def refactor (f : Nat) (g : SGraph) : Option SGraph :=
  (get_roots g).foldlM (fun g r => refactorNode f g r) g

/-- One serialized node of `to_dict`: the plain nested structure
`{"content": …, "metadata": …, "ancestry": …}`. -/
structure NodeDict where
  content : List Char
  metadata : List (String × String)
  ancestry : List (List Nat)
deriving Repr, DecidableEq

/-- The serialized shape `{"nodes": {...}, "edges": [...]}`. -/
structure GraphDict where
  nodes : List (Nat × NodeDict)
  edges : List (List Nat)
deriving Repr, DecidableEq

/-- `to_dict`: project every stored node to its content/metadata/ancestry
record and copy the edge sequence. -/
def to_dict (g : SGraph) : GraphDict :=
  { nodes := g.nodes.map (fun p => (p.1, ⟨p.2.content, p.2.metadata, p.2.ancestry⟩)),
    edges := g.edges }

/-- `from_dict`: rebuild the node mapping and adopt the edge sequence.  The
source has no id counter (`uuid4` supplies freshness), so the modelling
counter restarts at `0`; it is not part of the serialized state. -/
def from_dict (state : GraphDict) : SGraph :=
  { nodes := state.nodes.map (fun p => (p.1, ⟨p.2.content, p.2.metadata, p.2.ancestry⟩)),
    edges := state.edges,
    nextId := 0 }

/-- Build a graph as a caller would: `add_node` for each content (ids are
allocated `1, 2, …`), then `add_edge` for each hyperedge. -/
def mkGraph (contents : List α) (hedges : List (List Nat)) : Option (Graph α) := do
  let g := contents.foldl (fun g c => (add_node g ⟨c, [], []⟩).2)
    ({ nodes := [], edges := [], nextId := 1 } : Graph α)
  hedges.foldlM add_edge g

/-- The diamond graph of the spec's testable properties: A→B, A→C, B→D, C→D
as ids 1→2, 1→3, 2→4, 3→4. -/
def diamondG : Graph Nat :=
  (mkGraph [10, 20, 30, 40] [[1, 2], [1, 3], [2, 4], [3, 4]]).getD ⟨[], [], 0⟩

/-- The ten-node multi-hyperedge graph of the spec's testable properties. -/
def tenG : Graph Nat :=
  (mkGraph [0, 1, 2, 3, 4, 5, 6, 7, 8, 9]
    [[1, 2, 3], [2, 4, 5], [3, 6, 7], [4, 8, 9], [5, 10], [4, 10]]).getD ⟨[], [], 0⟩

/-- Two unrelated root nodes (no common ancestor). -/
def twoRootsG : Graph Nat := (mkGraph [0, 1] []).getD ⟨[], [], 0⟩

/-- The three-node cycle A→B, B→C, C→A of the spec's testable properties. -/
def cyc3G : Graph Nat := (mkGraph [0, 1, 2] [[1, 2], [2, 3], [3, 1]]).getD ⟨[], [], 0⟩

/-- The empty graph (no nodes, no roots). -/
def emptyG : Graph Nat := { nodes := [], edges := [], nextId := 1 }

/-- The six-node `content_lineage` graph of the spec's testable properties. -/
def cl6G : SGraph :=
  (mkGraph
    ["The quick ".toList, "brown fox jumps ".toList, "red car drives ".toList,
     "over the ".toList, "lazy dog.".toList, "speedbump.".toList]
    [[1, 2, 4], [1, 3, 4], [2, 4, 5], [3, 4, 6]]).getD ⟨[], [], 0⟩

/-- A single unlinked node `"Hello World!"`. -/
def helloG : SGraph := (mkGraph ["Hello World!".toList] []).getD ⟨[], [], 0⟩

/-- A root whose only child carries identical content (`refactor` merges the
pair twice and crashes on the second merge). -/
def eqChildG : SGraph := (mkGraph ["x".toList, "x".toList] [[1, 2]]).getD ⟨[], [], 0⟩

/-- A root `a` with children `b`, `c` where `b` has an only child `d`:
refactoring merges `b` with `d` and leaves the root with the single
remaining child `c`. -/
def acG : SGraph :=
  (mkGraph ["a".toList, "b".toList, "c".toList, "d".toList]
    [[1, 2], [1, 3], [2, 4]]).getD ⟨[], [], 0⟩

/-- Follows the spec's words for `check_for_cycles`: a depth-first walk from
some root along the materialized children relation revisits a node **on the
current path** (or the root set is empty). -/
def specCycleDFS : Nat → Graph α → Nat → List Nat → Option Bool
  | 0, _, _, _ => none
  | f + 1, g, i, path =>
    if i ∈ path then some true
    else do
      let cs ← get_children g i
      cs.foldlM (fun acc c => do
        if acc then pure true else specCycleDFS f g c (path ++ [i])) false

/-- Follows the spec's words: `true` iff the root set is empty or some
root's walk revisits a node on the current path. -/
def specCheckForCycles (f : Nat) (g : Graph α) : Option Bool := do
  if (get_roots g).isEmpty then pure true
  else (get_roots g).foldlM (fun acc r => do
    if acc then pure true else specCycleDFS f g r []) false

/-- Follows the claim's words for `common_ancestor`: the set-union of the
identifiers over all lineages of one queried node. -/
def unionLineageIds (f : Nat) (g : Graph α) (i : Nat) : Option (List Nat) :=
  (get_ancestry f g i).map (fun ancs => ancs.flatten.dedup)

/-- Follows the claim's words for `common_ancestor`: intersect the per-node
unions across the queried nodes, exclude the queried ids, and keep exactly
the candidates with the greatest number of ancestry-cache entries (the
admissible results under an arbitrary tie-break). -/
def specCommonAdmissible (f : Nat) (g : Graph α) (ids : List Nat) : Option (List Nat) := do
  let sets ← ids.mapM (unionLineageIds f g)
  let inter :=
    match sets with
    | [] => []
    | s :: rest => rest.foldl interSet s
  let rem := inter.filter (fun x => !(ids.contains x))
  let mx := (rem.map (ancLen g)).foldl max 0
  pure (rem.filter (fun x => ancLen g x == mx))

/-! Helper lemmas about the node-mapping primitives. -/

/-- Content and metadata of a node, the parts no ancestry update touches. -/
def cmOf (n : Node α) : α × List (String × String) := (n.content, n.metadata)

/-- Ancestry reset, the node update performed by `remove_edge`. -/
def clearNode (n : Node α) : Node α := { n with ancestry := [] }

theorem findNode_append (ns ms : List (Nat × Node α)) (i : Nat) :
    findNode (ns ++ ms) i =
      match findNode ns i with
      | some v => some v
      | none => findNode ms i := by
  induction ns with
  | nil => simp [findNode]
  | cons p rest ih =>
    obtain ⟨k, v⟩ := p
    by_cases h : k = i <;> simp [findNode, h, ih]

theorem findNode_condMap (ns : List (Nat × Node α)) (j : Nat) (u : Node α → Node α)
    (i : Nat) :
    findNode (ns.map (fun p => if p.1 = j then (p.1, u p.2) else p)) i =
      if i = j then (findNode ns i).map u else findNode ns i := by
  induction ns with
  | nil => by_cases h : i = j <;> simp [findNode, h]
  | cons p rest ih =>
    obtain ⟨k, v⟩ := p
    simp only [List.map_cons]
    by_cases hk : k = j
    · rw [if_pos hk]
      by_cases hi : k = i
      · subst hi
        simp [findNode, hk, ih]
      · simp [findNode, hi, ih]
    · rw [if_neg hk]
      by_cases hi : k = i
      · subst hi
        simp [findNode, hk]
      · simp [findNode, hi, ih]

theorem findNode_mem {ns : List (Nat × Node α)} {i : Nat} {v : Node α}
    (h : findNode ns i = some v) : (i, v) ∈ ns := by
  induction ns with
  | nil => simp [findNode] at h
  | cons p rest ih =>
    obtain ⟨k, w⟩ := p
    by_cases hk : k = i
    · subst hk
      simp [findNode] at h
      simp [h]
    · simp [findNode, hk] at h
      exact List.mem_cons_of_mem _ (ih h)

theorem findNode_eq_none_of_ge {ns : List (Nat × Node α)} {k x : Nat}
    (hb : ∀ p ∈ ns, p.1 < k) (hx : k ≤ x) : findNode ns x = none := by
  cases h : findNode ns x with
  | none => rfl
  | some v =>
    have := hb _ (findNode_mem h)
    omega

theorem findNode_filter_ne (ns : List (Nat × Node α)) (j i : Nat) :
    findNode (ns.filter (fun p => !(p.1 == j))) i =
      if i = j then none else findNode ns i := by
  induction ns with
  | nil => by_cases h : i = j <;> simp [findNode, h]
  | cons p rest ih =>
    obtain ⟨k, v⟩ := p
    by_cases hk : k = j
    · subst hk
      by_cases hi : i = k
      · subst hi
        simpa [findNode] using ih
      · simp only [List.filter_cons]
        simpa [findNode, hi, Ne.symm hi] using ih
    · by_cases hi : k = i
      · subst hi
        simp [findNode, List.filter_cons, hk]
      · simp [findNode, List.filter_cons, hk, hi, ih]

theorem appendAnc_some {ns ns2 : List (Nat × Node α)} {j : Nat} {entry : List Nat}
    (h : appendAnc ns j entry = some ns2) :
    (∀ i, findNode ns2 i =
      if i = j then (findNode ns i).map
        (fun n => { n with ancestry := n.ancestry ++ [entry] })
      else findNode ns i) := by
  unfold appendAnc at h
  by_cases hj : (findNode ns j).isSome
  · simp [hj] at h
    intro i
    rw [← h]
    exact findNode_condMap ns j (fun n => { n with ancestry := n.ancestry ++ [entry] }) i
  · simp [hj] at h

theorem appendAnc_isSome {ns : List (Nat × Node α)} {j : Nat} {entry : List Nat} :
    (appendAnc ns j entry).isSome ↔ (findNode ns j).isSome := by
  unfold appendAnc
  by_cases hj : (findNode ns j).isSome <;> simp [hj]

/-- The ancestry entries that one `add_edge e` contributes to the node at
`x`: one reversed strict prefix `(e.take i).reverse` for every position `i`
in `1 .. e.length - 1` holding `x`. -/
def entriesFor (e : List Nat) (x : Nat) : List (List Nat) :=
  ((List.range' 1 (e.length - 1)).filter (fun i => e.getD i 0 == x)).map
    (fun i => (e.take i).reverse)

theorem ancLoop_nil (e : List Nat) (ns : List (Nat × Node α)) :
    ancLoop e ns [] = some ns := rfl

theorem ancLoop_cons (e : List Nat) (ns : List (Nat × Node α)) (i : Nat) (is : List Nat) :
    ancLoop e ns (i :: is) =
      (appendAnc ns (e.getD i 0) ((e.take i).reverse)).bind
        (fun ns2 => ancLoop e ns2 is) := rfl

theorem add_edge_eq (g : Graph α) (e : List Nat) :
    add_edge g e =
      (ancLoop e g.nodes (List.range' 1 (e.length - 2))).bind (fun ns =>
        e.getLast?.bind (fun lst =>
          (appendAnc ns lst e.dropLast.reverse).bind (fun ns2 =>
            some { g with edges := g.edges ++ [e], nodes := ns2 }))) := rfl

theorem ancLoop_append (e : List Nat) (ns : List (Nat × Node α)) (is js : List Nat) :
    ancLoop e ns (is ++ js) = (ancLoop e ns is).bind (fun ns2 => ancLoop e ns2 js) := by
  induction is generalizing ns with
  | nil => simp [ancLoop_nil]
  | cons i rest ih =>
    rw [List.cons_append, ancLoop_cons, ancLoop_cons]
    cases h : appendAnc ns (e.getD i 0) ((e.take i).reverse) with
    | none => simp
    | some ns2 => simp [ih]

theorem ancLoop_some_find {e : List Nat} {is : List Nat}
    {ns ns2 : List (Nat × Node α)} (h : ancLoop e ns is = some ns2) (x : Nat) :
    findNode ns2 x = (findNode ns x).map (fun n =>
      { n with ancestry := n.ancestry ++
          ((is.filter (fun i => e.getD i 0 == x)).map (fun i => (e.take i).reverse)) }) := by
  induction is generalizing ns with
  | nil =>
    rw [ancLoop_nil, Option.some_inj] at h
    subst h
    cases hf : findNode ns x <;> simp [hf]
  | cons i rest ih =>
    rw [ancLoop_cons] at h
    cases ha : appendAnc ns (e.getD i 0) ((e.take i).reverse) with
    | none => rw [ha] at h; simp at h
    | some ns1 =>
      rw [ha, Option.some_bind] at h
      have step := appendAnc_some ha x
      have tail := ih h
      by_cases hx : e.getD i 0 = x
      · rw [tail, step, if_pos hx.symm]
        have hx2 : (e[i]?.getD 0 = x) := by
          rw [← List.getD_eq_getElem?_getD]; exact hx
        cases hf : findNode ns x <;> simp [hf, List.filter_cons, hx2]
      · have hxx : ¬ x = e.getD i 0 := fun hc => hx hc.symm
        rw [tail, step, if_neg hxx]
        have hx2 : ¬ (e[i]?.getD 0 = x) := by
          rw [← List.getD_eq_getElem?_getD]; exact hx
        cases hf : findNode ns x <;> simp [hf, List.filter_cons, hx2]

theorem ancLoop_isSome_of {e : List Nat} {is : List Nat} {ns : List (Nat × Node α)}
    (h : ∀ i ∈ is, (findNode ns (e.getD i 0)).isSome) : (ancLoop e ns is).isSome := by
  induction is generalizing ns with
  | nil => simp [ancLoop_nil]
  | cons i rest ih =>
    have hi := h i (List.mem_cons_self i rest)
    have ha : (appendAnc ns (e.getD i 0) ((e.take i).reverse)).isSome :=
      appendAnc_isSome.mpr hi
    cases hsome : appendAnc ns (e.getD i 0) ((e.take i).reverse) with
    | none => rw [hsome] at ha; simp at ha
    | some ns1 =>
      rw [ancLoop_cons, hsome, Option.some_bind]
      apply ih
      intro j hj
      have hstep := appendAnc_some hsome (e.getD j 0)
      rw [hstep]
      by_cases hx : e.getD j 0 = e.getD i 0
      · rw [if_pos hx, hx]
        cases hf : findNode ns (e.getD i 0) with
        | none => rw [hf] at hi; simp at hi
        | some v => simp
      · rw [if_neg hx]
        exact h j (List.mem_cons_of_mem _ hj)

theorem add_edge_some_char {g g2 : Graph α} {e : List Nat} (hlen : 2 ≤ e.length)
    (h : add_edge g e = some g2) :
    g2.edges = g.edges ++ [e] ∧ g2.nextId = g.nextId ∧
      ∀ x, findNode g2.nodes x = (findNode g.nodes x).map
        (fun n => { n with ancestry := n.ancestry ++ entriesFor e x }) := by
  have hlast : e.getLast? = some (e.getD (e.length - 1) 0) := by
    rw [List.getLast?_eq_getElem?, List.getD_eq_getElem?_getD]
    cases hh : e[e.length - 1]? with
    | none =>
      rw [List.getElem?_eq_none_iff] at hh
      omega
    | some v => simp
  have hdrop : e.dropLast.reverse = (e.take (e.length - 1)).reverse := by
    rw [List.dropLast_eq_take]
  rw [add_edge_eq] at h
  cases hl : ancLoop e g.nodes (List.range' 1 (e.length - 2)) with
  | none => rw [hl] at h; simp at h
  | some ns1 =>
    rw [hl, Option.some_bind, hlast, Option.some_bind, hdrop] at h
    cases ha : appendAnc ns1 (e.getD (e.length - 1) 0) ((e.take (e.length - 1)).reverse) with
    | none => rw [ha] at h; simp at h
    | some ns2 =>
      rw [ha, Option.some_bind, Option.some_inj] at h
      have hloop : ancLoop e g.nodes (List.range' 1 (e.length - 1)) = some ns2 := by
        have hr : List.range' 1 (e.length - 1) =
            List.range' 1 (e.length - 2) ++ [e.length - 1] := by
          have h2 : e.length - 1 = (e.length - 2) + 1 := by omega
          rw [h2, List.range'_concat]
          have h3 : 1 + 1 * (e.length - 2) = e.length - 2 + 1 := by omega
          rw [h3]
        rw [hr, ancLoop_append, hl, Option.some_bind, ancLoop_cons, ha, Option.some_bind,
          ancLoop_nil]
      refine ⟨by rw [← h], by rw [← h], fun x => ?_⟩
      rw [← h]
      exact ancLoop_some_find hloop x

theorem add_edge_isSome_of {g : Graph α} {e : List Nat} (hlen : 2 ≤ e.length)
    (h : ∀ x ∈ e, (findNode g.nodes x).isSome) : (add_edge g e).isSome := by
  have hmem : ∀ i, 1 ≤ i → i < e.length → e.getD i 0 ∈ e := by
    intro i _ hi
    rw [List.getD_eq_getElem _ _ hi]
    exact List.getElem_mem hi
  have hloop : (ancLoop e g.nodes (List.range' 1 (e.length - 2))).isSome := by
    apply ancLoop_isSome_of
    intro i hi
    rw [List.mem_range'_1] at hi
    exact h _ (hmem i hi.1 (by omega))
  cases hl : ancLoop e g.nodes (List.range' 1 (e.length - 2)) with
  | none => rw [hl] at hloop; simp at hloop
  | some ns1 =>
    have hlast : e.getLast? = some (e.getD (e.length - 1) 0) := by
      rw [List.getLast?_eq_getElem?, List.getD_eq_getElem?_getD]
      cases hh : e[e.length - 1]? with
      | none =>
        rw [List.getElem?_eq_none_iff] at hh
        omega
      | some v => simp
    have hstored : (findNode ns1 (e.getD (e.length - 1) 0)).isSome := by
      rw [ancLoop_some_find hl (e.getD (e.length - 1) 0)]
      have hx := h _ (hmem (e.length - 1) (by omega) (by omega))
      cases hf : findNode g.nodes (e.getD (e.length - 1) 0) with
      | none => rw [hf] at hx; simp at hx
      | some v => simp
    have ha : (appendAnc ns1 (e.getD (e.length - 1) 0) e.dropLast.reverse).isSome :=
      appendAnc_isSome.mpr hstored
    cases hap : appendAnc ns1 (e.getD (e.length - 1) 0) e.dropLast.reverse with
    | none => rw [hap] at ha; simp at ha
    | some ns2 => rw [add_edge_eq, hl, Option.some_bind, hlast, Option.some_bind, hap]; simp

theorem filter_singleton_of_unique {l : List Nat} {p : Nat → Bool} {i : Nat}
    (hl : l.Nodup) (hi : i ∈ l) (hp : p i = true)
    (huniq : ∀ j ∈ l, p j = true → j = i) : l.filter p = [i] := by
  induction l with
  | nil => simp at hi
  | cons x rest ih =>
    rcases List.mem_cons.mp hi with hx | hx
    · subst hx
      rw [List.filter_cons, if_pos (by simp [hp])]
      have hrest : rest.filter p = [] := by
        rw [List.filter_eq_nil_iff]
        intro j hj hpj
        have := huniq j (List.mem_cons_of_mem _ hj) hpj
        subst this
        exact absurd hj (List.nodup_cons.mp hl).1
      rw [hrest]
    · have hpx : p x = false := by
        cases hpx : p x with
        | false => rfl
        | true =>
          have := huniq x (List.mem_cons_self x rest) hpx
          subst this
          exact absurd hx (List.nodup_cons.mp hl).1
      rw [List.filter_cons, if_neg (by simp [hpx])]
      exact ih (List.nodup_cons.mp hl).2 hx
        (fun j hj hpj => huniq j (List.mem_cons_of_mem _ hj) hpj)

theorem entriesFor_nodup {e : List Nat} (hnd : e.Nodup) {i : Nat}
    (h1 : 1 ≤ i) (h2 : i < e.length) :
    entriesFor e (e.getD i 0) = [(e.take i).reverse] := by
  unfold entriesFor
  have hfil : (List.range' 1 (e.length - 1)).filter
      (fun j => e.getD j 0 == e.getD i 0) = [i] := by
    apply filter_singleton_of_unique (List.nodup_range' _ _)
    · rw [List.mem_range'_1]
      omega
    · simp
    · intro j hj hpj
      rw [List.mem_range'_1] at hj
      have hjlt : j < e.length := by omega
      have : e.getD j 0 = e.getD i 0 := by simpa using hpj
      rw [List.getD_eq_getElem _ _ hjlt, List.getD_eq_getElem _ _ h2] at this
      exact (List.Nodup.getElem_inj_iff hnd).mp this
  rw [hfil, List.map_cons, List.map_nil]

/-- C1: for a hyperedge `e` of length ≥ 2 whose identifiers all exist in
the node mapping, `add_edge` succeeds, appends `e` to the edge sequence and
appends to the ancestry cache of the node at each position `i` in
`1..len-1` exactly the reversed strict prefix `(e.take i).reverse`; in the
ten-node multi-hyperedge graph, node 10's ancestry is `[[5], [4]]`. -/
theorem C1_add_edge_reversed_prefixes :
    (∀ (g : Graph α) (e : List Nat), 2 ≤ e.length →
      (∀ x ∈ e, (findNode g.nodes x).isSome) →
      ∃ g2, add_edge g e = some g2 ∧
        g2.edges = g.edges ++ [e] ∧
        (∀ x, findNode g2.nodes x = (findNode g.nodes x).map
          (fun n => { n with ancestry := n.ancestry ++ entriesFor e x })) ∧
        (e.Nodup → ∀ i, 1 ≤ i → i < e.length →
          ∃ n, findNode g.nodes (e.getD i 0) = some n ∧
            findNode g2.nodes (e.getD i 0) =
              some { n with ancestry := n.ancestry ++ [(e.take i).reverse] })) ∧
    (findNode tenG.nodes 10).map (fun n => n.ancestry) = some [[5], [4]] := by
  constructor
  · intro g e hlen hstored
    have hs := add_edge_isSome_of hlen hstored
    cases hadd : add_edge g e with
    | none => rw [hadd] at hs; simp at hs
    | some g2 =>
      obtain ⟨hedges, _, hfind⟩ := add_edge_some_char hlen hadd
      refine ⟨g2, rfl, hedges, hfind, ?_⟩
      intro hnd i h1 h2
      have hmem : e.getD i 0 ∈ e := by
        rw [List.getD_eq_getElem _ _ h2]
        exact List.getElem_mem h2
      have hsome := hstored _ hmem
      cases hf : findNode g.nodes (e.getD i 0) with
      | none => rw [hf] at hsome; simp at hsome
      | some n =>
        refine ⟨n, rfl, ?_⟩
        rw [hfind, hf, Option.map_some', entriesFor_nodup hnd h1 h2]
  · decide

/-- Witness for C1 at a concrete input: adding the edge `[1, 2]` to the
two-root graph. -/
theorem C1_witness :
    ∃ g2, add_edge twoRootsG [1, 2] = some g2 ∧
      g2.edges = twoRootsG.edges ++ [[1, 2]] ∧
      ∃ n, findNode twoRootsG.nodes (([1, 2] : List Nat).getD 1 0) = some n ∧
        findNode g2.nodes (([1, 2] : List Nat).getD 1 0) =
          some { n with ancestry := n.ancestry ++ [(([1, 2] : List Nat).take 1).reverse] } := by
  obtain ⟨g2, ha, hb, _, hd⟩ :=
    (C1_add_edge_reversed_prefixes (α := Nat)).1 twoRootsG [1, 2]
      (by decide) (by decide)
  exact ⟨g2, ha, hb, hd (by decide) 1 (by decide) (by decide)⟩

theorem clearAnc_find (ns : List (Nat × Node α)) (j x : Nat) :
    findNode (clearAnc ns j) x =
      if x = j then (findNode ns x).map clearNode else findNode ns x :=
  findNode_condMap ns j (fun n => { n with ancestry := [] }) x

theorem clearNode_clearNode (n : Node α) : clearNode (clearNode n) = clearNode n := rfl

theorem foldl_clearAnc_find (is : List Nat) (ns : List (Nat × Node α)) (x : Nat) :
    findNode (is.foldl clearAnc ns) x =
      if x ∈ is then (findNode ns x).map clearNode else findNode ns x := by
  induction is generalizing ns with
  | nil => simp
  | cons i rest ih =>
    rw [List.foldl_cons, ih, clearAnc_find]
    by_cases hx : x ∈ rest
    · rw [if_pos hx, if_pos (List.mem_cons_of_mem _ hx)]
      by_cases hxi : x = i
      · rw [if_pos hxi]
        cases hf : findNode ns x <;> simp [clearNode_clearNode]
      · rw [if_neg hxi]
    · rw [if_neg hx]
      by_cases hxi : x = i
      · rw [if_pos hxi, if_pos (by simp [hxi])]
      · rw [if_neg hxi, if_neg (by simp [hxi, hx])]

/-- C5: `remove_edge e` erases exactly one value-equal occurrence of `e`
(none when absent), resets the entire ancestry cache of every stored node
at a non-head position of `e`, and leaves every other stored node — in
particular the head when it does not also occupy a non-head position — and
all contents and metadata unchanged. -/
theorem C5_remove_edge_clears :
    ∀ (g : Graph α) (e : List Nat),
      (e ∉ g.edges → (remove_edge g e).edges = g.edges) ∧
      (e ∈ g.edges → ∃ l1 l2, e ∉ l1 ∧ g.edges = l1 ++ e :: l2 ∧
        (remove_edge g e).edges = l1 ++ l2) ∧
      (∀ x n, findNode g.nodes x = some n → x ∈ e.tail →
        findNode (remove_edge g e).nodes x = some { n with ancestry := [] }) ∧
      (∀ x n, findNode g.nodes x = some n → x ∉ e.tail →
        findNode (remove_edge g e).nodes x = some n) ∧
      (∀ h t n, e = h :: t → h ∉ t → findNode g.nodes h = some n →
        findNode (remove_edge g e).nodes h = some n) ∧
      (∀ x n, findNode g.nodes x = some n → ∃ n2,
        findNode (remove_edge g e).nodes x = some n2 ∧
          n2.content = n.content ∧ n2.metadata = n.metadata) := by
  intro g e
  have hnodes : ∀ x, findNode (remove_edge g e).nodes x =
      if x ∈ e.tail then (findNode g.nodes x).map clearNode else findNode g.nodes x :=
    fun x => foldl_clearAnc_find e.tail g.nodes x
  refine ⟨?_, ?_, ?_, ?_, ?_, ?_⟩
  · intro hmem
    exact List.erase_of_not_mem hmem
  · intro hmem
    obtain ⟨l1, l2, hnot, hsplit, herase⟩ := List.exists_erase_eq hmem
    exact ⟨l1, l2, hnot, hsplit, herase⟩
  · intro x n hf hx
    rw [hnodes, if_pos hx, hf]
    rfl
  · intro x n hf hx
    rw [hnodes, if_neg hx, hf]
  · intro h t n hsplit hnot hf
    rw [hnodes, hsplit]
    simp only [List.tail_cons]
    rw [if_neg hnot, hf]
  · intro x n hf
    rw [hnodes]
    by_cases hx : x ∈ e.tail
    · rw [if_pos hx, hf]
      exact ⟨clearNode n, rfl, rfl, rfl⟩
    · rw [if_neg hx, hf]
      exact ⟨n, rfl, rfl, rfl⟩

/-- Witness for C5 at a concrete input: removing `[1, 2]` from the diamond
graph clears node 2 entirely and leaves node 1 unchanged. -/
theorem C5_witness :
    (∃ n, findNode diamondG.nodes 2 = some n ∧
      findNode (remove_edge diamondG [1, 2]).nodes 2 = some { n with ancestry := [] }) ∧
    (∃ n, findNode diamondG.nodes 1 = some n ∧
      findNode (remove_edge diamondG [1, 2]).nodes 1 = some n) := by
  have h := C5_remove_edge_clears (α := Nat) diamondG [1, 2]
  constructor
  · exact ⟨⟨20, [], [[1]]⟩, by decide, h.2.2.1 2 ⟨20, [], [[1]]⟩ (by decide) (by decide)⟩
  · exact ⟨⟨10, [], []⟩, by decide, h.2.2.2.2.1 1 [2] ⟨10, [], []⟩ rfl (by decide) (by decide)⟩

theorem getAncestriesF_succ (f : Nat) (g : Graph α) (i : Nat) :
    getAncestriesF (f + 1) g i =
      match findNode g.nodes i with
      | none => none
      | some nd => if nd.ancestry = [] then some [[]] else ancPaths f g nd.ancestry := rfl

theorem ancPaths_nil (f : Nat) (g : Graph α) : ancPaths f g [] = some [] := rfl

theorem ancPaths_cons (f : Nat) (g : Graph α) (p : List Nat) (ps : List (List Nat)) :
    ancPaths f g (p :: ps) =
      p.getLast?.bind (fun l =>
        (getAncestriesF f g l).bind (fun recs =>
          (ancPaths f g ps).bind (fun rest =>
            some (recs.map (fun r => p ++ r) ++ rest)))) := rfl

theorem mem_get_roots {g : Graph α} {i : Nat} :
    i ∈ get_roots g ↔ ∃ m, (i, m) ∈ g.nodes ∧ m.ancestry = [] := by
  unfold get_roots
  constructor
  · intro h
    obtain ⟨p, hp, hpi⟩ := List.mem_map.mp h
    obtain ⟨hmem, hroot⟩ := List.mem_filter.mp hp
    obtain ⟨k, v⟩ := p
    cases hpi
    exact ⟨v, hmem, by simpa using hroot⟩
  · rintro ⟨m, hmem, hanc⟩
    exact List.mem_map.mpr ⟨(i, m), List.mem_filter.mpr ⟨hmem, by simp [hanc]⟩, rfl⟩

theorem findNode_of_mem_nodup {ns : List (Nat × Node α)} {i : Nat} {m : Node α}
    (hnd : (ns.map Prod.fst).Nodup) (hmem : (i, m) ∈ ns) :
    findNode ns i = some m := by
  induction ns with
  | nil => simp at hmem
  | cons p rest ih =>
    obtain ⟨k, v⟩ := p
    rcases List.mem_cons.mp hmem with hx | hx
    · cases hx
      simp [findNode]
    · have hk : k ≠ i := by
        intro hki
        subst hki
        have : k ∈ rest.map Prod.fst := List.mem_map.mpr ⟨(k, m), hx, rfl⟩
        exact (List.nodup_cons.mp (by simpa using hnd)).1 this
      rw [findNode, if_neg hk]
      exact ih (List.nodup_cons.mp (by simpa using hnd)).2 hx

theorem get_ancestry_root {g : Graph α} {i : Nat} {n : Node α} (f : Nat)
    (h : findNode g.nodes i = some n) (hanc : n.ancestry = []) :
    get_ancestry f g i = some [[i]] := by
  unfold get_ancestry
  rw [if_pos (mem_get_roots.mpr ⟨n, findNode_mem h, hanc⟩)]

theorem get_ancestry_heads {g : Graph α} {f i : Nat} {rs : List (List Nat)}
    (h : get_ancestry f g i = some rs) : ∀ r ∈ rs, ∃ t, r = i :: t := by
  unfold get_ancestry at h
  by_cases hr : i ∈ get_roots g
  · rw [if_pos hr, Option.some_inj] at h
    subst h
    intro r hmem
    rw [List.mem_singleton] at hmem
    exact ⟨[], hmem⟩
  · rw [if_neg hr] at h
    cases hg : getAncestriesF f g i with
    | none => rw [hg] at h; simp at h
    | some ps =>
      rw [hg] at h
      simp only [Option.map_some', Option.some_inj] at h
      subst h
      intro r hmem
      obtain ⟨p, _, hp⟩ := List.mem_map.mp hmem
      exact ⟨p, hp.symm⟩

theorem get_ancestry_to_getAncestries {g : Graph α} {f i : Nat} {rs : List (List Nat)}
    (hnd : (g.nodes.map Prod.fst).Nodup) (hf : 1 ≤ f)
    (h : get_ancestry f g i = some rs) :
    getAncestriesF f g i = some (rs.map List.tail) := by
  unfold get_ancestry at h
  by_cases hr : i ∈ get_roots g
  · rw [if_pos hr, Option.some_inj] at h
    subst h
    obtain ⟨m, hmem, hanc⟩ := mem_get_roots.mp hr
    obtain ⟨f2, rfl⟩ : ∃ f2, f = f2 + 1 := ⟨f - 1, by omega⟩
    rw [getAncestriesF_succ, findNode_of_mem_nodup hnd hmem]
    simp [hanc]
  · rw [if_neg hr] at h
    cases hg : getAncestriesF f g i with
    | none => rw [hg] at h; simp at h
    | some ps =>
      rw [hg] at h
      simp only [Option.map_some', Option.some_inj] at h
      subst h
      rw [List.map_map]
      congr 1
      exact (List.map_id'' (fun p => rfl) ps).symm

theorem ancPaths_of_entries {g : Graph α} {f : Nat} {ps : List (List Nat)}
    {F : List Nat → List (List Nat)}
    (hyp : ∀ p ∈ ps, ∃ l, p.getLast? = some l ∧ getAncestriesF f g l = some (F p)) :
    ancPaths f g ps = some ((ps.map (fun p => (F p).map (fun r => p ++ r))).flatten) := by
  induction ps with
  | nil => simp [ancPaths_nil]
  | cons p rest ih =>
    obtain ⟨l, hl, hg⟩ := hyp p (List.mem_cons_self p rest)
    rw [ancPaths_cons, hl, Option.some_bind, hg, Option.some_bind,
      ih (fun q hq => hyp q (List.mem_cons_of_mem _ hq)), Option.some_bind]
    simp

/-- C2: `get_ancestry` returns `[[i]]` for a stored node with an empty
ancestry cache; for a stored node with entries it yields, for each entry `p`
and each recursively obtained ancestry `r` of `p`'s last element, the path
`i :: (p ++ r.tail)` (the recursive path minus its leading duplicate of
`p`'s last element), in entry-major order; in the diamond graph,
`get_ancestry D` is exactly `[[D,B,A], [D,C,A]]`. -/
theorem C2_get_ancestry_enumerates :
    (∀ (g : Graph α) (f i : Nat) (n : Node α),
      findNode g.nodes i = some n → n.ancestry = [] →
      get_ancestry f g i = some [[i]]) ∧
    (∀ (g : Graph α) (f i : Nat) (n : Node α) (F : List Nat → List (List Nat)),
      (g.nodes.map Prod.fst).Nodup →
      findNode g.nodes i = some n → n.ancestry ≠ [] → 1 ≤ f →
      (∀ p ∈ n.ancestry, ∃ l, p.getLast? = some l ∧ get_ancestry f g l = some (F p)) →
      get_ancestry (f + 1) g i =
        some ((n.ancestry.map (fun p => (F p).map (fun r => i :: (p ++ r.tail)))).flatten)) ∧
    get_ancestry 10 diamondG 4 = some [[4, 2, 1], [4, 3, 1]] := by
  refine ⟨fun g f i n h hanc => get_ancestry_root f h hanc, ?_, by decide⟩
  intro g f i n F hnd h hanc hf hyp
  have hnotroot : i ∉ get_roots g := by
    intro hr
    obtain ⟨m, hmem, hmanc⟩ := mem_get_roots.mp hr
    rw [findNode_of_mem_nodup hnd hmem, Option.some_inj] at h
    exact hanc (h ▸ hmanc)
  have hpaths : ancPaths f g n.ancestry =
      some ((n.ancestry.map (fun p => ((F p).map List.tail).map (fun r => p ++ r))).flatten) := by
    apply ancPaths_of_entries
    intro p hp
    obtain ⟨l, hl, hg⟩ := hyp p hp
    exact ⟨l, hl, get_ancestry_to_getAncestries hnd hf hg⟩
  have hG : getAncestriesF (f + 1) g i = ancPaths f g n.ancestry := by
    rw [getAncestriesF_succ, h]
    exact if_neg hanc
  unfold get_ancestry
  rw [if_neg hnotroot, hG, hpaths]
  simp only [Option.map_some', Option.some_inj]
  rw [List.map_flatten, List.map_map]
  congr 1
  apply List.map_congr_left
  intro p _
  simp only [Function.comp_apply, List.map_map]
  rfl

/-- Witness for C2 at concrete inputs: the root case at node 1 of the
diamond, and the recursive case at node 4 of the diamond. -/
theorem C2_witness :
    get_ancestry 7 diamondG 1 = some [[1]] ∧
    get_ancestry 3 diamondG 4 =
      some ((([[2], [3]] : List (List Nat)).map
        (fun p => ((fun q => if q = [2] then [[2, 1]] else [[3, 1]]) p).map
          (fun r => 4 :: (p ++ r.tail)))).flatten) := by
  constructor
  · exact C2_get_ancestry_enumerates.1 diamondG 7 1 ⟨10, [], []⟩ (by decide) rfl
  · exact C2_get_ancestry_enumerates.2.1 diamondG 2 4 ⟨40, [], [[2], [3]]⟩
      (fun q => if q = [2] then [[2, 1]] else [[3, 1]])
      (by decide) (by decide) (by decide) (by decide)
      (by
        intro p hp
        rcases List.mem_cons.mp hp with h | h
        · subst h
          exact ⟨2, rfl, by decide⟩
        · rw [List.mem_singleton] at h
          subst h
          exact ⟨3, rfl, by decide⟩)

/-- C4 (code bug): the claim (and the spec) say `check_for_cycles` flags a
cycle only when a walk revisits a node **on the current path** (or the root
set is empty), so the acyclic materialized diamond must report `false`; the
code threads one shared `visited` list through the whole depth-first walk,
so the merge node D, reached a second time via C, is reported as a cycle:
the code answers `true` on the diamond while the path-based reading answers
`false`.  The empty graph and the three-node cycle do report `true`, as the
claim states. -/
theorem C4_check_for_cycles_visited_bug :
    check_for_cycles 10 emptyG = some true ∧
    check_for_cycles 10 cyc3G = some true ∧
    get_roots diamondG = [1] ∧
    specCheckForCycles 10 diamondG = some false ∧
    check_for_cycles 10 diamondG = some true := by
  refine ⟨by decide, by decide, by decide, by decide, by decide⟩

theorem mem_interSet {m a : List Nat} {x : Nat} :
    x ∈ interSet m a ↔ x ∈ m ∧ x ∈ a := by
  unfold interSet
  rw [List.mem_dedup, List.mem_filter]
  exact and_congr_right (fun _ => List.elem_iff)

theorem mem_of_getLast? {l : List Nat} {a : Nat} (h : l.getLast? = some a) : a ∈ l := by
  induction l with
  | nil => simp at h
  | cons x rest ih =>
    cases rest with
    | nil =>
      simp at h
      simp [h]
    | cons y t =>
      rw [List.getLast?_cons_cons] at h
      exact List.mem_cons_of_mem _ (ih h)

theorem lineageFold_isSome {mca : Option (List Nat)} {ancs : List (List Nat)}
    (h : mca.isSome ∨ ancs ≠ []) : (lineageFold mca ancs).isSome := by
  induction ancs generalizing mca with
  | nil =>
    rcases h with h | h
    · exact h
    · simp at h
  | cons a rest ih =>
    unfold lineageFold
    rw [List.foldl_cons]
    cases mca with
    | none => exact ih (Or.inl rfl)
    | some m => exact ih (Or.inl rfl)

theorem lineageFold_some_sub {mca : Option (List Nat)} {ancs : List (List Nat)}
    {m : List Nat} (h : lineageFold mca ancs = some m) :
    ∀ x ∈ m, (∀ a ∈ ancs, x ∈ a) ∧ (∀ m0, mca = some m0 → x ∈ m0) := by
  induction ancs generalizing mca with
  | nil =>
    intro x hx
    unfold lineageFold at h
    rw [List.foldl_nil] at h
    exact ⟨by simp, fun m0 hm0 => by rw [hm0] at h; cases h; exact hx⟩
  | cons a rest ih =>
    intro x hx
    unfold lineageFold at h
    rw [List.foldl_cons] at h
    cases mca with
    | none =>
      obtain ⟨hrest, hm1⟩ := ih h x hx
      have hxa : x ∈ a := hm1 a rfl
      exact ⟨fun b hb => by
        rcases List.mem_cons.mp hb with hb | hb
        · exact hb ▸ hxa
        · exact hrest b hb, by simp⟩
    | some m0 =>
      obtain ⟨hrest, hm1⟩ := ih h x hx
      have hxi : x ∈ interSet m0 a := hm1 _ rfl
      rw [mem_interSet] at hxi
      refine ⟨fun b hb => ?_, fun m1 hm => ?_⟩
      · rcases List.mem_cons.mp hb with hb | hb
        · exact hb ▸ hxi.2
        · exact hrest b hb
      · cases hm
        exact hxi.1

theorem lineageFold_mem_of {mca : Option (List Nat)} {ancs : List (List Nat)}
    {m : List Nat} {x : Nat} (hall : ∀ a ∈ ancs, x ∈ a)
    (h : lineageFold mca ancs = some m)
    (hseed : (∃ m0, mca = some m0 ∧ x ∈ m0) ∨ (mca = none ∧ ancs ≠ [])) :
    x ∈ m := by
  induction ancs generalizing mca with
  | nil =>
    unfold lineageFold at h
    rw [List.foldl_nil] at h
    rcases hseed with ⟨m0, hm0, hx⟩ | ⟨_, hne⟩
    · rw [hm0] at h; cases h; exact hx
    · exact absurd rfl hne
  | cons a rest ih =>
    unfold lineageFold at h
    rw [List.foldl_cons] at h
    have hxa : x ∈ a := hall a (List.mem_cons_self a rest)
    cases mca with
    | none =>
      exact ih (fun b hb => hall b (List.mem_cons_of_mem _ hb)) h
        (Or.inl ⟨a, rfl, hxa⟩)
    | some m0 =>
      rcases hseed with ⟨m1, hm1, hx0⟩ | ⟨habs, _⟩
      · have hm01 : m0 = m1 := by injection hm1
        subst hm01
        exact ih (fun b hb => hall b (List.mem_cons_of_mem _ hb)) h
          (Or.inl ⟨interSet m0 a, rfl, mem_interSet.mpr ⟨hx0, hxa⟩⟩)
      · cases habs

theorem mcaFold_aux_sub {f : Nat} {g : Graph α} {ids : List Nat}
    {mca0 : Option (List Nat)} {mca1 : Option (List Nat)}
    (h : ids.foldlM (fun mca i =>
        (get_ancestry f g i).map (fun ancs => lineageFold mca ancs)) mca0 = some mca1)
    {m : List Nat} (hm : mca1 = some m) :
    ∀ x ∈ m,
      (∀ i ∈ ids, ∀ ancs, get_ancestry f g i = some ancs → ∀ a ∈ ancs, x ∈ a) ∧
      (∀ m0, mca0 = some m0 → x ∈ m0) := by
  induction ids generalizing mca0 with
  | nil =>
    rw [List.foldlM_nil, Option.pure_def, Option.some_inj] at h
    subst h
    subst hm
    intro x hx
    exact ⟨by simp, fun m0 hm0 => by cases hm0; exact hx⟩
  | cons i rest ih =>
    rw [List.foldlM_cons] at h
    cases hga : get_ancestry f g i with
    | none => rw [hga] at h; simp at h
    | some ancs =>
      rw [hga] at h
      simp only [Option.map_some', Option.some_bind] at h
      intro x hx
      obtain ⟨hrest, hmid⟩ := ih h x hx
      by_cases hmca : (lineageFold mca0 ancs).isSome
      · cases hlf : lineageFold mca0 ancs with
        | none => rw [hlf] at hmca; simp at hmca
        | some m1 =>
          have hx1 : x ∈ m1 := hmid m1 hlf
          obtain ⟨hancs, hseed⟩ := lineageFold_some_sub hlf x hx1
          refine ⟨fun j hj ancs2 hga2 => ?_, hseed⟩
          rcases List.mem_cons.mp hj with hj | hj
          · subst hj
            rw [hga] at hga2
            cases hga2
            exact hancs
          · exact hrest j hj ancs2 hga2
      · have hnone : lineageFold mca0 ancs = none := by
          cases hlf : lineageFold mca0 ancs with
          | none => rfl
          | some m1 => rw [hlf] at hmca; simp at hmca
        have hancs_nil : ancs = [] := by
          by_contra hne
          exact hmca (lineageFold_isSome (Or.inr hne))
        have hmca0 : mca0 = none := by
          cases hm0 : mca0 with
          | none => rfl
          | some m0 =>
            have hsome2 := @lineageFold_isSome mca0 ancs (Or.inl (by rw [hm0]; rfl))
            exact absurd hsome2 hmca
        subst hancs_nil
        refine ⟨fun j hj ancs2 hga2 => ?_, fun m0 hm0 => by rw [hmca0] at hm0; cases hm0⟩
        rcases List.mem_cons.mp hj with hj | hj
        · subst hj
          rw [hga] at hga2
          cases hga2
          simp
        · exact hrest j hj ancs2 hga2

theorem mcaFold_aux_mem {f : Nat} {g : Graph α} {ids : List Nat}
    {mca0 : Option (List Nat)} {m : List Nat} {x : Nat}
    (h : ids.foldlM (fun mca i =>
        (get_ancestry f g i).map (fun ancs => lineageFold mca ancs)) mca0 = some (some m))
    (hall : ∀ i ∈ ids, ∀ ancs, get_ancestry f g i = some ancs → ∀ a ∈ ancs, x ∈ a)
    (hseed : ∀ m0, mca0 = some m0 → x ∈ m0) :
    x ∈ m := by
  induction ids generalizing mca0 with
  | nil =>
    rw [List.foldlM_nil, Option.pure_def, Option.some_inj] at h
    exact hseed m h
  | cons i rest ih =>
    rw [List.foldlM_cons] at h
    cases hga : get_ancestry f g i with
    | none => rw [hga] at h; simp at h
    | some ancs =>
      rw [hga] at h
      simp only [Option.map_some', Option.some_bind] at h
      have hxa : ∀ a ∈ ancs, x ∈ a := fun a ha => hall i (List.mem_cons_self i rest) ancs hga a ha
      refine ih h (fun j hj => hall j (List.mem_cons_of_mem _ hj)) ?_
      intro m1 hm1
      cases hmc : mca0 with
      | none =>
        have hne : ancs ≠ [] := by
          intro hnil
          rw [hmc, hnil] at hm1
          unfold lineageFold at hm1
          rw [List.foldl_nil] at hm1
          cases hm1
        exact lineageFold_mem_of hxa (hmc ▸ hm1) (Or.inr ⟨rfl, hne⟩)
      | some m0 =>
        exact lineageFold_mem_of hxa (hmc ▸ hm1) (Or.inl ⟨m0, rfl, hseed m0 hmc⟩)

theorem pairwise_le_getLast {R : Nat → Nat → Prop} (hrefl : ∀ y, R y y) :
    ∀ {l : List Nat} {r x : Nat}, List.Pairwise R l → l.getLast? = some r → x ∈ l → R x r := by
  intro l
  induction l with
  | nil => intro r x _ h; simp at h
  | cons y rest ih =>
    intro r x hp hl hx
    cases rest with
    | nil =>
      have hxy : x = y := List.mem_singleton.mp hx
      subst hxy
      simp only [List.getLast?_singleton, Option.some_inj] at hl
      rw [hl]
      exact hrefl r
    | cons z t =>
      rw [List.getLast?_cons_cons] at hl
      rcases List.mem_cons.mp hx with rfl | hx2
      · exact (List.pairwise_cons.mp hp).1 r (mem_of_getLast? hl)
      · exact ih (List.pairwise_cons.mp hp).2 hl hx2

/-- C3 counterexample: the claim aggregates per queried node with a
set-union over that node's lineages; the code intersects across every
individual lineage.  On the diamond with queried set `[D]`, the union-based
remainder is `{B, C, A}` with admissible (greatest ancestry-cache count)
results `{B, C}`, but the code returns `A`. -/
theorem C3_counterexample_union_aggregation :
    common_ancestor 10 diamondG [4] = some (some 1) ∧
    specCommonAdmissible 10 diamondG [4] = some [2, 3] ∧
    ((1 : Nat) ∈ ([2, 3] : List Nat) → False) ∧
    ancLen diamondG 2 = 1 ∧ ancLen diamondG 1 = 0 := by
  refine ⟨by decide, by decide, by decide, by decide, by decide⟩

/-- C3 amended: `common_ancestor` intersects the identifier sets of every
individual lineage of every queried node (the first lineage seeds the
intersection), excludes the queried ids, and returns a remaining identifier
of maximal ancestry-cache count: any returned `r` lies outside the queried
ids, lies on every lineage of every queried node, and no other identifier
common to every lineage and outside the queried ids has a larger
ancestry-cache count; in the diamond `common_ancestor [B, C] = A`, and two
unrelated roots give the missing-result sentinel. -/
theorem C3A_common_ancestor_intersects_lineages :
    (∀ (g : Graph α) (f : Nat) (ids : List Nat) (r : Nat),
      common_ancestor f g ids = some (some r) →
      r ∉ ids ∧
      (∀ i ∈ ids, ∀ ancs, get_ancestry f g i = some ancs → ∀ a ∈ ancs, r ∈ a) ∧
      (∀ x, x ∉ ids →
        (∀ i ∈ ids, ∀ ancs, get_ancestry f g i = some ancs → ∀ a ∈ ancs, x ∈ a) →
        ancLen g x ≤ ancLen g r)) ∧
    common_ancestor 10 diamondG [2, 3] = some (some 1) ∧
    common_ancestor 10 twoRootsG [1, 2] = some none := by
  refine ⟨?_, by decide, by decide⟩
  intro g f ids r h
  unfold common_ancestor at h
  cases hmf : mcaFold f g ids with
  | none => rw [hmf] at h; simp at h
  | some mca =>
    rw [hmf, Option.some_bind] at h
    cases mca with
    | none => simp at h
    | some m =>
      simp only at h
      by_cases hemp : (m.insertionSort (fun x y => ancLen g x ≤ ancLen g y)).isEmpty
      · rw [if_pos hemp] at h
        cases h
      · rw [if_neg hemp] at h
        cases hgl : (List.filter (fun x => !(ids.contains x))
            (m.insertionSort (fun x y => ancLen g x ≤ ancLen g y))).getLast? with
        | none => rw [hgl] at h; cases h
        | some r2 =>
          rw [hgl] at h
          cases h
          have hrfil := mem_of_getLast? hgl
          have hrms := (List.mem_filter.mp hrfil).1
          have hrnot : r ∉ ids := by
            intro hmem
            have hfil2 := (List.mem_filter.mp hrfil).2
            have hc : ids.contains r = true := List.elem_iff.mpr hmem
            rw [hc] at hfil2
            simp at hfil2
          have hrm : r ∈ m :=
            (List.perm_insertionSort (fun x y => ancLen g x ≤ ancLen g y) m).mem_iff.mp hrms
          have hsub := mcaFold_aux_sub (m := m) hmf rfl
          refine ⟨hrnot, fun i hi ancs ha a haa => (hsub r hrm).1 i hi ancs ha a haa, ?_⟩
          intro x hxnot hxall
          have hxm : x ∈ m := mcaFold_aux_mem hmf hxall (fun m0 hm0 => by cases hm0)
          have hxms : x ∈ m.insertionSort (fun x y => ancLen g x ≤ ancLen g y) :=
            (List.perm_insertionSort _ m).mem_iff.mpr hxm
          have hxfil : x ∈ List.filter (fun x => !(ids.contains x))
              (m.insertionSort (fun x y => ancLen g x ≤ ancLen g y)) := by
            rw [List.mem_filter]
            refine ⟨hxms, ?_⟩
            simp only [Bool.not_eq_true']
            cases hc : ids.contains x with
            | false => rfl
            | true => exact absurd (List.elem_iff.mp hc) hxnot
          haveI : IsTotal Nat (fun x y => ancLen g x ≤ ancLen g y) :=
            ⟨fun a b => Nat.le_total _ _⟩
          haveI : IsTrans Nat (fun x y => ancLen g x ≤ ancLen g y) :=
            ⟨fun a b c => Nat.le_trans⟩
          have hsorted : List.Pairwise (fun x y => ancLen g x ≤ ancLen g y)
              (m.insertionSort (fun x y => ancLen g x ≤ ancLen g y)) :=
            List.sorted_insertionSort _ m
          have hpfil : List.Pairwise (fun x y => ancLen g x ≤ ancLen g y)
              (List.filter (fun x => !(ids.contains x))
                (m.insertionSort (fun x y => ancLen g x ≤ ancLen g y))) :=
            List.Pairwise.sublist (List.filter_sublist _) hsorted
          exact pairwise_le_getLast (R := fun x y => ancLen g x ≤ ancLen g y)
            (fun y => Nat.le_refl _) hpfil hgl hxfil

/-- Witness for C3's amended theorem at a concrete input: the diamond with
queried ids `[B, C]` returns `A = 1`, which lies outside the queried set and
maximizes the ancestry-count among common lineage members. -/
theorem C3A_witness :
    (1 : Nat) ∉ ([2, 3] : List Nat) ∧ ancLen diamondG 1 ≤ ancLen diamondG 1 := by
  have h := (C3A_common_ancestor_intersects_lineages (α := Nat)).1 diamondG 10 [2, 3] 1
    (by decide)
  refine ⟨h.1, h.2.2 1 (by decide) ?_⟩
  intro i hi ancs ha a haa
  have hi2 : i = 2 ∨ i = 3 := by
    rcases List.mem_cons.mp hi with h1 | h1
    · exact Or.inl h1
    · exact Or.inr (List.mem_singleton.mp h1)
  rcases hi2 with rfl | rfl
  · have hde : get_ancestry 10 diamondG 2 = some [[2, 1]] := by decide
    rw [hde, Option.some_inj] at ha
    subst ha
    rw [List.mem_singleton] at haa
    subst haa
    decide
  · have hde : get_ancestry 10 diamondG 3 = some [[3, 1]] := by decide
    rw [hde, Option.some_inj] at ha
    subst ha
    rw [List.mem_singleton] at haa
    subst haa
    decide

/-- C8: serializing a graph with `to_dict` and rebuilding it with
`from_dict` reproduces the node mapping (same identifiers, content,
metadata and ancestry, in order) and the hyperedge sequence exactly. -/
theorem C8_serialization_round_trip :
    ∀ g : SGraph,
      (from_dict (to_dict g)).nodes = g.nodes ∧ (from_dict (to_dict g)).edges = g.edges := by
  intro g
  refine ⟨?_, rfl⟩
  show (g.nodes.map (fun p => ((p.1 : Nat),
      (⟨p.2.content, p.2.metadata, p.2.ancestry⟩ : NodeDict)))).map
      (fun p => (p.1, (⟨p.2.content, p.2.metadata, p.2.ancestry⟩ : Node (List Char)))) = g.nodes
  rw [List.map_map]
  exact List.map_id'' (fun p => rfl) g.nodes

theorem clFind_nil (g : SGraph) (content : List Char) :
    clFind g content [] = some none := rfl

theorem clFind_cons (g : SGraph) (content : List Char) (a : List Nat)
    (as : List (List Nat)) :
    clFind g content (a :: as) =
      (a.reverse.mapM (fun j => findNode g.nodes j)).bind (fun nds =>
        if infixOf ((nds.map (fun n => n.content)).flatten) content then
          some (some a.reverse)
        else clFind g content as) := rfl

theorem clGo_nil (f : Nat) (g : SGraph) (content : List Char) :
    clGo f g content [] = some [] := rfl

theorem clGo_cons (f : Nat) (g : SGraph) (content : List Char) (i : Nat)
    (nd : Node (List Char)) (rest : List (Nat × Node (List Char))) :
    clGo f g content ((i, nd) :: rest) =
      if nd.content.isSuffixOf content then
        (get_ancestry f g i).bind (fun ancs =>
          (clFind g content ancs).bind (fun res =>
            match res with
            | some a => some a
            | none => clGo f g content rest))
      else clGo f g content rest := rfl

theorem clFind_sound {g : SGraph} {content : List Char} {ancs : List (List Nat)}
    {l : List Nat} (h : clFind g content ancs = some (some l)) :
    ∃ a ∈ ancs, l = a.reverse ∧
      ∃ nds, a.reverse.mapM (fun j => findNode g.nodes j) = some nds ∧
        infixOf ((nds.map (fun n => n.content)).flatten) content = true := by
  induction ancs with
  | nil => rw [clFind_nil] at h; simp at h
  | cons a as ih =>
    rw [clFind_cons] at h
    cases hm : a.reverse.mapM (fun j => findNode g.nodes j) with
    | none => rw [hm] at h; simp at h
    | some nds =>
      rw [hm, Option.some_bind] at h
      by_cases hin : infixOf ((nds.map (fun n => n.content)).flatten) content
      · rw [if_pos hin, Option.some_inj, Option.some_inj] at h
        exact ⟨a, List.mem_cons_self a as, h.symm, nds, hm, hin⟩
      · rw [if_neg hin] at h
        obtain ⟨a2, ha2, rest⟩ := ih h
        exact ⟨a2, List.mem_cons_of_mem _ ha2, rest⟩

theorem clGo_sound {f : Nat} {g : SGraph} {content : List Char}
    {rest : List (Nat × Node (List Char))} {l : List Nat}
    (h : clGo f g content rest = some l) (hne : l ≠ []) :
    ∃ i nd, (i, nd) ∈ rest ∧ nd.content.isSuffixOf content = true ∧
      ∃ ancs, get_ancestry f g i = some ancs ∧
        ∃ a ∈ ancs, l = a.reverse ∧
          ∃ nds, a.reverse.mapM (fun j => findNode g.nodes j) = some nds ∧
            infixOf ((nds.map (fun n => n.content)).flatten) content = true := by
  induction rest with
  | nil =>
    rw [clGo_nil, Option.some_inj] at h
    exact absurd h.symm hne
  | cons p rest2 ih =>
    obtain ⟨i, nd⟩ := p
    rw [clGo_cons] at h
    by_cases hsuf : nd.content.isSuffixOf content
    · rw [if_pos hsuf] at h
      cases hga : get_ancestry f g i with
      | none => rw [hga] at h; simp at h
      | some ancs =>
        rw [hga, Option.some_bind] at h
        cases hcf : clFind g content ancs with
        | none => rw [hcf] at h; simp at h
        | some res =>
          rw [hcf, Option.some_bind] at h
          cases res with
          | some a =>
            simp only [Option.some_inj] at h
            subst h
            obtain ⟨a2, ha2, heq, hrest⟩ := clFind_sound hcf
            exact ⟨i, nd, List.mem_cons_self _ _, hsuf, ancs, hga, a2, ha2, heq, hrest⟩
          | none =>
            obtain ⟨i2, nd2, hmem, hrest⟩ := ih h
            exact ⟨i2, nd2, List.mem_cons_of_mem _ hmem, hrest⟩
    · rw [if_neg hsuf] at h
      obtain ⟨i2, nd2, hmem, hrest⟩ := ih h
      exact ⟨i2, nd2, List.mem_cons_of_mem _ hmem, hrest⟩

/-- C7: a non-empty `content_lineage` result names a stored node whose
content is a suffix of the target and one of whose enumerated lineages,
reversed into root-to-node order, has concatenated contents occurring
contiguously inside the target; on the six-node graph the two spec target
strings resolve to `[1, 2, 4, 5]` and `[1, 3, 4, 6]`. -/
theorem C7_content_lineage_reconstructs :
    (∀ (g : SGraph) (f : Nat) (content : List Char) (l : List Nat),
      content_lineage f g content = some l → l ≠ [] →
      ∃ i nd, (i, nd) ∈ g.nodes ∧ nd.content.isSuffixOf content = true ∧
        ∃ ancs, get_ancestry f g i = some ancs ∧
          ∃ a ∈ ancs, l = a.reverse ∧
            ∃ nds, a.reverse.mapM (fun j => findNode g.nodes j) = some nds ∧
              infixOf ((nds.map (fun n => n.content)).flatten) content = true) ∧
    content_lineage 10 cl6G "The quick brown fox jumps over the lazy dog.".toList =
      some [1, 2, 4, 5] ∧
    content_lineage 10 cl6G "The quick red car drives over the speedbump.".toList =
      some [1, 3, 4, 6] := by
  refine ⟨?_, by decide, by decide⟩
  intro g f content l h hne
  exact clGo_sound h hne

/-- Witness for C7 at a concrete input: the first spec target string on the
six-node graph. -/
theorem C7_witness :
    ∃ i nd, (i, nd) ∈ cl6G.nodes ∧
      nd.content.isSuffixOf "The quick brown fox jumps over the lazy dog.".toList = true ∧
      ∃ ancs, get_ancestry 10 cl6G i = some ancs ∧
        ∃ a ∈ ancs, ([1, 2, 4, 5] : List Nat) = a.reverse ∧
          ∃ nds, a.reverse.mapM (fun j => findNode cl6G.nodes j) = some nds ∧
            infixOf ((nds.map (fun n => n.content)).flatten)
              "The quick brown fox jumps over the lazy dog.".toList = true := by
  exact C7_content_lineage_reconstructs.1 cl6G 10
    "The quick brown fox jumps over the lazy dog.".toList [1, 2, 4, 5]
    (by decide) (by decide)

theorem foldl_remove_edge_eq (ets : List (List Nat)) (g : Graph α) :
    ets.foldl remove_edge g =
      { nodes := ets.foldl (fun ns e => e.tail.foldl clearAnc ns) g.nodes,
        edges := ets.foldl (fun es e => es.erase e) g.edges,
        nextId := g.nextId } := by
  induction ets generalizing g with
  | nil => rfl
  | cons e rest ih =>
    rw [List.foldl_cons, ih, List.foldl_cons, List.foldl_cons]
    rfl

theorem foldl_erase_cons_ne {x : List Nat} :
    ∀ (ets l : List (List Nat)), (∀ e ∈ ets, e ≠ x) →
      ets.foldl (fun es e => es.erase e) (x :: l) =
        x :: ets.foldl (fun es e => es.erase e) l := by
  intro ets
  induction ets with
  | nil => intro l _; rfl
  | cons e rest ih =>
    intro l hne
    rw [List.foldl_cons, List.foldl_cons]
    have hbx : ¬ (x == e) = true := by
      have hxe : e ≠ x := hne e (List.mem_cons_self e rest)
      simp only [beq_iff_eq]
      exact fun hc => hxe hc.symm
    rw [List.erase_cons_tail hbx]
    exact ih _ (fun e2 he2 => hne e2 (List.mem_cons_of_mem _ he2))

theorem foldl_erase_filter (P : List Nat → Bool) :
    ∀ (l extra : List (List Nat)), (∀ e ∈ extra, P e = false) →
      (l.filter P).foldl (fun es e => es.erase e) (l ++ extra) =
        l.filter (fun e => !(P e)) ++ extra := by
  intro l
  induction l with
  | nil => intro extra _; simp
  | cons x xs ih =>
    intro extra hextra
    cases hP : P x with
    | true =>
      rw [List.filter_cons_of_pos hP, List.foldl_cons, List.cons_append,
        List.erase_cons_head, ih extra hextra, List.filter_cons_of_neg (by simp [hP])]
    | false =>
      rw [List.filter_cons_of_neg (by simp [hP]), List.cons_append,
        foldl_erase_cons_ne _ _ (by
          intro e he
          have hPe : P e = true := (List.mem_filter.mp he).2
          intro hc
          rw [hc, hP] at hPe
          cases hPe),
        ih extra hextra, List.filter_cons_of_pos (by simp [hP]), List.cons_append]

theorem foldl_clear_tails_find (ets : List (List Nat)) (ns : List (Nat × Node α)) (x : Nat) :
    findNode (ets.foldl (fun ns e => e.tail.foldl clearAnc ns) ns) x =
      if x ∈ (ets.map List.tail).flatten then (findNode ns x).map clearNode
      else findNode ns x := by
  induction ets generalizing ns with
  | nil => simp
  | cons e rest ih =>
    rw [List.foldl_cons, ih, foldl_clearAnc_find, List.map_cons, List.flatten_cons]
    by_cases hr : x ∈ (rest.map List.tail).flatten
    · rw [if_pos hr, if_pos (List.mem_append_right _ hr)]
      by_cases ht : x ∈ e.tail
      · rw [if_pos ht]
        cases hf : findNode ns x <;> simp [clearNode_clearNode]
      · rw [if_neg ht]
    · rw [if_neg hr]
      by_cases ht : x ∈ e.tail
      · rw [if_pos ht, if_pos (List.mem_append_left _ ht)]
      · rw [if_neg ht, if_neg (by
          intro hc
          rcases List.mem_append.mp hc with hc | hc
          · exact ht hc
          · exact hr hc)]

theorem remove_node_char {g : Graph α} {i : Nat} (hst : (findNode g.nodes i).isSome) :
    (remove_node g i).edges = g.edges.filter (fun e => !(e.contains i)) ∧
    (remove_node g i).nextId = g.nextId ∧
    ∀ x, findNode (remove_node g i).nodes x =
      if x = i then none
      else if x ∈ ((g.edges.filter (fun e => e.contains i)).map List.tail).flatten
      then (findNode g.nodes x).map clearNode
      else findNode g.nodes x := by
  unfold remove_node
  rw [if_pos hst]
  simp only []
  rw [foldl_remove_edge_eq]
  have hedges : (g.edges.filter (fun e => e.contains i)).foldl
      (fun es e => es.erase e) g.edges = g.edges.filter (fun e => !(e.contains i)) := by
    have := foldl_erase_filter (fun e => e.contains i) g.edges [] (by simp)
    simpa using this
  refine ⟨hedges, rfl, ?_⟩
  intro x
  rw [foldl_clear_tails_find, findNode_filter_ne]
  by_cases hx : x = i
  · rw [if_pos hx, if_pos hx]
    by_cases hm : x ∈ ((g.edges.filter (fun e => e.contains i)).map List.tail).flatten
    · rw [if_pos hm]
      rfl
    · rw [if_neg hm]
  · rw [if_neg hx, if_neg hx]

/-- The association-list fragment appended by the node-creation loop of
`split`: consecutive fresh ids from `k`, one bare node per piece. -/
def newPairs (k : Nat) : List (List Char) → List (Nat × Node (List Char))
  | [] => []
  | p :: rest => (k, ⟨p, [], []⟩) :: newPairs (k + 1) rest

theorem addNodes_go (ps : List (List Char)) :
    ∀ (acc : List Nat) (g : SGraph),
      ps.foldl (fun acc p =>
          let r := add_node acc.2 (⟨p, [], []⟩ : Node (List Char))
          (acc.1 ++ [r.1], r.2)) (acc, g) =
        (acc ++ List.range' g.nextId ps.length,
          { nodes := g.nodes ++ newPairs g.nextId ps, edges := g.edges,
            nextId := g.nextId + ps.length }) := by
  induction ps with
  | nil =>
    intro acc g
    simp [newPairs]
  | cons p rest ih =>
    intro acc g
    rw [List.foldl_cons]
    have hstep := ih (acc ++ [g.nextId])
      ({ nodes := g.nodes ++ [(g.nextId, ⟨p, [], []⟩)], edges := g.edges,
         nextId := g.nextId + 1 } : SGraph)
    simp only [add_node] at hstep ⊢
    rw [hstep]
    have h1 : acc ++ [g.nextId] ++ List.range' (g.nextId + 1) rest.length
        = acc ++ List.range' g.nextId (p :: rest).length := by
      rw [List.length_cons, List.range'_succ, List.append_assoc, List.singleton_append]
    have h2 : g.nodes ++ [(g.nextId, (⟨p, [], []⟩ : Node (List Char)))]
          ++ newPairs (g.nextId + 1) rest
        = g.nodes ++ newPairs g.nextId (p :: rest) := by
      rw [newPairs, List.append_assoc, List.singleton_append]
    have h3 : g.nextId + 1 + rest.length = g.nextId + (p :: rest).length := by
      rw [List.length_cons]
      omega
    rw [h1, h2, h3]

theorem addNodes_char (g : SGraph) (ps : List (List Char)) :
    addNodes g ps = (List.range' g.nextId ps.length,
      { nodes := g.nodes ++ newPairs g.nextId ps, edges := g.edges,
        nextId := g.nextId + ps.length }) := by
  have := addNodes_go ps [] g
  simpa [addNodes] using this

theorem add_edge_preserves {g g2 : Graph α} {e : List Nat}
    (h : add_edge g e = some g2) :
    g2.edges = g.edges ++ [e] ∧ g2.nextId = g.nextId ∧
      ∀ x, (findNode g2.nodes x).map cmOf = (findNode g.nodes x).map cmOf ∧
        (findNode g2.nodes x).isSome = (findNode g.nodes x).isSome := by
  rw [add_edge_eq] at h
  cases hl : ancLoop e g.nodes (List.range' 1 (e.length - 2)) with
  | none => rw [hl] at h; simp at h
  | some ns1 =>
    rw [hl, Option.some_bind] at h
    cases hlast : e.getLast? with
    | none => rw [hlast] at h; simp at h
    | some lst =>
      rw [hlast, Option.some_bind] at h
      cases ha : appendAnc ns1 lst e.dropLast.reverse with
      | none => rw [ha] at h; simp at h
      | some ns2 =>
        rw [ha, Option.some_bind, Option.some_inj] at h
        subst h
        refine ⟨rfl, rfl, ?_⟩
        intro x
        have h1 := ancLoop_some_find hl x
        have h2 := appendAnc_some ha x
        show (findNode ns2 x).map cmOf = _ ∧ (findNode ns2 x).isSome = _
        rw [h2]
        by_cases hx : x = lst
        · rw [if_pos hx, h1]
          cases hf : findNode g.nodes x <;> simp [cmOf]
        · rw [if_neg hx, h1]
          cases hf : findNode g.nodes x <;> simp [cmOf]

theorem foldlM_add_edge_list {β : Type} (hfn : β → List Nat) :
    ∀ (l : List β) (g g2 : Graph α),
      l.foldlM (fun g a => add_edge g (hfn a)) g = some g2 →
      g2.edges = g.edges ++ l.map hfn ∧ g2.nextId = g.nextId ∧
        ∀ x, (findNode g2.nodes x).map cmOf = (findNode g.nodes x).map cmOf ∧
          (findNode g2.nodes x).isSome = (findNode g.nodes x).isSome := by
  intro l
  induction l with
  | nil =>
    intro g g2 h
    rw [List.foldlM_nil, Option.pure_def, Option.some_inj] at h
    subst h
    simp
  | cons a rest ih =>
    intro g g2 h
    rw [List.foldlM_cons] at h
    cases hae : add_edge g (hfn a) with
    | none => rw [hae] at h; simp at h
    | some g1 =>
      rw [hae] at h
      obtain ⟨he1, hn1, hp1⟩ := add_edge_preserves hae
      obtain ⟨he2, hn2, hp2⟩ := ih g1 g2 h
      refine ⟨by rw [he2, he1, List.map_cons, List.append_assoc, List.singleton_append],
        by rw [hn2, hn1], ?_⟩
      intro x
      exact ⟨by rw [(hp2 x).1, (hp1 x).1], by rw [(hp2 x).2, (hp1 x).2]⟩

/-- The consecutive-pair hyperedges that `split` adds between the new
pieces. -/
def pairEdges : List Nat → List (List Nat)
  | a :: b :: rest => [a, b] :: pairEdges (b :: rest)
  | _ => []

theorem linkPairs_char :
    ∀ (sids : List Nat) (g g2 : SGraph), linkPairs g sids = some g2 →
      g2.edges = g.edges ++ pairEdges sids ∧ g2.nextId = g.nextId ∧
        ∀ x, (findNode g2.nodes x).map cmOf = (findNode g.nodes x).map cmOf ∧
          (findNode g2.nodes x).isSome = (findNode g.nodes x).isSome := by
  intro sids
  induction sids with
  | nil =>
    intro g g2 h
    cases h
    simp [pairEdges]
  | cons a rest ih =>
    intro g g2 h
    cases rest with
    | nil =>
      cases h
      simp [pairEdges]
    | cons b rest2 =>
      have hlp : linkPairs g (a :: b :: rest2) =
          (add_edge g [a, b]).bind (fun g1 => linkPairs g1 (b :: rest2)) := rfl
      rw [hlp] at h
      cases hae : add_edge g [a, b] with
      | none => rw [hae] at h; simp at h
      | some g1 =>
        rw [hae] at h
        obtain ⟨he1, hn1, hp1⟩ := add_edge_preserves hae
        obtain ⟨he2, hn2, hp2⟩ := ih g1 g2 h
        have hpe : pairEdges (a :: b :: rest2) = [a, b] :: pairEdges (b :: rest2) := rfl
        refine ⟨by rw [he2, he1, hpe, List.append_assoc, List.singleton_append],
          by rw [hn2, hn1], ?_⟩
        intro x
        exact ⟨by rw [(hp2 x).1, (hp1 x).1], by rw [(hp2 x).2, (hp1 x).2]⟩

theorem childStep_nil (i : Nat) (acc : List Nat) : childStep i acc [] = none := rfl

theorem childStep_single (i : Nat) (acc : List Nat) (x : Nat) :
    childStep i acc [x] = if x = i then none else some acc := rfl

theorem childStep_cons2 (i : Nat) (acc : List Nat) (x y : Nat) (t : List Nat) :
    childStep i acc (x :: y :: t) = if x = i then some (acc ++ [y]) else some acc := rfl

theorem get_children_go_mem {g : Graph α} {i : Nat} :
    ∀ (es : List (List Nat)) (acc cs : List Nat),
      es.foldlM (childStep i) acc = some cs →
      (∀ y ∈ acc, y ∈ cs) ∧ (∀ e ∈ es, ∀ y t, e = i :: y :: t → y ∈ cs) := by
  intro es
  induction es with
  | nil =>
    intro acc cs h
    rw [List.foldlM_nil, Option.pure_def, Option.some_inj] at h
    subst h
    exact ⟨fun y hy => hy, by simp⟩
  | cons e rest ih =>
    intro acc cs h
    rw [List.foldlM_cons] at h
    match e with
    | [] =>
      rw [childStep_nil] at h
      simp at h
    | [x] =>
      rw [childStep_single] at h
      by_cases hx : x = i
      · rw [if_pos hx] at h
        simp at h
      · rw [if_neg hx] at h
        obtain ⟨hacc, hrest⟩ := ih acc cs h
        refine ⟨hacc, ?_⟩
        intro e2 he2 y t hyt
        rcases List.mem_cons.mp he2 with rfl | he2
        · cases hyt
        · exact hrest e2 he2 y t hyt
    | x :: y2 :: t2 =>
      rw [childStep_cons2] at h
      by_cases hx : x = i
      · rw [if_pos hx] at h
        obtain ⟨hacc, hrest⟩ := ih _ cs h
        refine ⟨fun y hy => hacc y (List.mem_append_left _ hy), ?_⟩
        intro e2 he2 y t hyt
        rcases List.mem_cons.mp he2 with rfl | he2
        · injection hyt with ha hb
          injection hb with hy2 ht
          subst hy2
          exact hacc y2 (List.mem_append_right _ (List.mem_singleton.mpr rfl))
        · exact hrest e2 he2 y t hyt
      · rw [if_neg hx] at h
        obtain ⟨hacc, hrest⟩ := ih acc cs h
        refine ⟨hacc, ?_⟩
        intro e2 he2 y t hyt
        rcases List.mem_cons.mp he2 with rfl | he2
        · injection hyt with ha hb
          exact absurd ha hx
        · exact hrest e2 he2 y t hyt

theorem get_children_mem {g : Graph α} {i : Nat} {cs : List Nat}
    (h : get_children g i = some cs) :
    ∀ e ∈ g.edges, ∀ y t, e = i :: y :: t → y ∈ cs :=
  (get_children_go_mem (g := g) (i := i) g.edges [] cs h).2

theorem slicePieces_length (c : List Char) :
    ∀ (start : Nat) (bs : List Nat), (slicePieces c start bs).length = bs.length + 1 := by
  intro start bs
  induction bs generalizing start with
  | nil => rfl
  | cons b rest ih => simp [slicePieces, ih]

theorem split_eq (g : SGraph) (i : Nat) (boundary : List Nat) :
    split g i boundary =
      (findNode g.nodes i).bind (fun nd =>
        let bs := boundary.insertionSort (· ≤ ·)
        let pieces := slicePieces nd.content 0 bs
        let sg := addNodes g pieces
        (if nd.ancestry.isEmpty then some sg.2
         else nd.ancestry.foldlM
            (fun g2 a => add_edge g2 (a.reverse ++ [sg.1.headD 0])) sg.2).bind
          (fun g2 => (linkPairs g2 sg.1).bind (fun g3 =>
            (get_children g3 i).bind (fun children =>
              (children.foldlM (fun gx c => add_edge gx [sg.1.getLastD 0, c]) g3).bind
                (fun g4 => some (sg.1, remove_node g4 i)))))) := by
  unfold split
  refine Option.bind_congr fun nd _ => ?_
  by_cases hempty : nd.ancestry.isEmpty
  · simp only [if_pos hempty]
    rfl
  · simp only [if_neg hempty]
    rfl

theorem split_steps {g g' : SGraph} {i : Nat} {boundary : List Nat}
    {nd : Node (List Char)} {sids : List Nat}
    (hf : findNode g.nodes i = some nd)
    (hs : split g i boundary = some (sids, g')) :
    ∃ g4,
      sids = List.range' g.nextId
        (slicePieces nd.content 0 (boundary.insertionSort (· ≤ ·))).length ∧
      g' = remove_node g4 i ∧
      (∀ e ∈ g.edges, e ∈ g4.edges) ∧
      (¬ nd.ancestry.isEmpty →
        ∀ a ∈ nd.ancestry, (a.reverse ++ [sids.headD 0]) ∈ g4.edges) ∧
      (∀ e ∈ pairEdges sids, e ∈ g4.edges) ∧
      (∀ e ∈ g.edges, ∀ y t, e = i :: y :: t → [sids.getLastD 0, y] ∈ g4.edges) ∧
      (∀ x, (findNode g4.nodes x).map cmOf =
          (findNode (g.nodes ++ newPairs g.nextId
            (slicePieces nd.content 0 (boundary.insertionSort (· ≤ ·)))) x).map cmOf ∧
        (findNode g4.nodes x).isSome =
          (findNode (g.nodes ++ newPairs g.nextId
            (slicePieces nd.content 0 (boundary.insertionSort (· ≤ ·)))) x).isSome) := by
  rw [split_eq, hf, Option.some_bind] at hs
  simp only [addNodes_char] at hs
  set pieces := slicePieces nd.content 0 (boundary.insertionSort (· ≤ ·)) with hpieces
  set RANGE := List.range' g.nextId pieces.length with hRANGE
  set GN : SGraph :=
    { nodes := g.nodes ++ newPairs g.nextId pieces, edges := g.edges,
      nextId := g.nextId + pieces.length } with hGN
  cases hg2 : (if nd.ancestry.isEmpty then some GN
      else nd.ancestry.foldlM
        (fun g2 a => add_edge g2 (a.reverse ++ [RANGE.headD 0])) GN) with
  | none => rw [hg2] at hs; simp at hs
  | some g2 =>
    rw [hg2, Option.some_bind] at hs
    have hg2char : (GN.edges = GN.edges ∧ nd.ancestry.isEmpty → True) ∧
        (∀ e ∈ GN.edges, e ∈ g2.edges) ∧
        (¬ nd.ancestry.isEmpty →
          ∀ a ∈ nd.ancestry, (a.reverse ++ [RANGE.headD 0]) ∈ g2.edges) ∧
        g2.nextId = GN.nextId ∧
        (∀ x, (findNode g2.nodes x).map cmOf = (findNode GN.nodes x).map cmOf ∧
          (findNode g2.nodes x).isSome = (findNode GN.nodes x).isSome) := by
      by_cases hempty : nd.ancestry.isEmpty
      · rw [if_pos hempty, Option.some_inj] at hg2
        subst hg2
        exact ⟨fun _ => trivial, fun e he => he, fun hne => absurd hempty hne, rfl,
          fun x => ⟨rfl, rfl⟩⟩
      · rw [if_neg hempty] at hg2
        obtain ⟨he, hn, hp⟩ := foldlM_add_edge_list
          (fun a => a.reverse ++ [RANGE.headD 0]) nd.ancestry GN g2 hg2
        refine ⟨fun _ => trivial, ?_, ?_, hn, hp⟩
        · intro e hmem
          rw [he]
          exact List.mem_append_left _ hmem
        · intro _ a ha
          rw [he]
          exact List.mem_append_right _ (List.mem_map.mpr ⟨a, ha, rfl⟩)
    cases hg3 : linkPairs g2 RANGE with
    | none => rw [hg3] at hs; simp at hs
    | some g3 =>
      rw [hg3, Option.some_bind] at hs
      obtain ⟨he3, hn3, hp3⟩ := linkPairs_char RANGE g2 g3 hg3
      cases hch : get_children g3 i with
      | none => rw [hch] at hs; simp at hs
      | some children =>
        rw [hch, Option.some_bind] at hs
        cases hg4 : children.foldlM (fun gx c => add_edge gx [RANGE.getLastD 0, c]) g3 with
        | none => rw [hg4] at hs; simp at hs
        | some g4 =>
          rw [hg4, Option.some_bind, Option.some_inj] at hs
          obtain ⟨he4, hn4, hp4⟩ := foldlM_add_edge_list
            (fun c => [RANGE.getLastD 0, c]) children g3 g4 hg4
          have h1 : RANGE = sids := congrArg Prod.fst hs
          have h2 : remove_node g4 i = g' := congrArg Prod.snd hs
          subst h1
          refine ⟨g4, rfl, h2.symm, ?_, ?_, ?_, ?_, ?_⟩
          · intro e he
            rw [he4, he3]
            exact List.mem_append_left _ (List.mem_append_left _ (hg2char.2.1 e he))
          · intro hne a ha
            rw [he4, he3]
            exact List.mem_append_left _
              (List.mem_append_left _ (hg2char.2.2.1 hne a ha))
          · intro e he
            rw [he4, he3]
            exact List.mem_append_left _ (List.mem_append_right _ he)
          · intro e he y t hyt
            have hy : y ∈ children := get_children_mem hch e (by
              rw [he3]
              exact List.mem_append_left _ (hg2char.2.1 e he)) y t hyt
            rw [he4]
            exact List.mem_append_right _ (List.mem_map.mpr ⟨y, hy, rfl⟩)
          · intro x
            have q2 := hg2char.2.2.2.2 x
            have q3 := hp3 x
            have q4 := hp4 x
            exact ⟨by rw [q4.1, q3.1, q2.1], by rw [q4.2, q3.2, q2.2]⟩

theorem range'_getLast? (k n : Nat) :
    (List.range' k (n + 1)).getLast? = some (k + n) := by
  have h := @List.range'_concat 1 k n
  rw [show k + 1 * n = k + n by omega] at h
  rw [h, List.getLast?_concat]

theorem range'_headD (k n : Nat) : (List.range' k (n + 1)).headD 0 = k := by
  rw [List.range'_succ]
  rfl

theorem range'_getLastD (k n : Nat) : (List.range' k (n + 1)).getLastD 0 = k + n := by
  rw [List.getLastD_eq_getLast?, range'_getLast?]
  rfl

/-- The split example graph: node 1 `"ab"` with child node 2 `"c"`. -/
def abcG : SGraph := (mkGraph ["ab".toList, "c".toList] [[1, 2]]).getD ⟨[], [], 0⟩

/-- The state after `split(1, 1)` on `abcG`. -/
def abcSplitG : SGraph := ((split abcG 1 [1]).getD ([], ⟨[], [], 0⟩)).2

/-- The state after `split(1, 6)` on the single-node `"Hello World!"` graph. -/
def helloSplitG : SGraph := ((split helloG 1 [6]).getD ([], ⟨[], [], 0⟩)).2

/-- Three nodes joined by the single length-3 hyperedge `[1, 2, 3]`: node 2
is a former child of node 1 through a multi-node hyperedge. -/
def triG : SGraph :=
  (mkGraph ["a".toList, "b".toList, "c".toList] [[1, 2, 3]]).getD ⟨[], [], 0⟩

/-- The state after `split(1, 1)` on `triG`. -/
def triSplitG : SGraph := ((split triG 1 [1]).getD ([], ⟨[], [], 0⟩)).2

/-- C10: when a stored node `i` has a child `c` (a stored hyperedge
`[i, c]`), a successful `split i boundary` stores the re-parenting
hyperedge `[lastPiece, c]` while `c`'s ancestry cache ends up empty — the
final `remove_node i` clears it through `remove_edge` — so the edge
sequence and `c`'s ancestry cache are mutually inconsistent; concretely,
splitting `"ab"` at offset 1 with child 2 leaves edges
`[[3, 4], [4, 2]]` and node 2's ancestry `[]`. -/
theorem C10_split_breaks_child_ancestry :
    (∀ (g g' : SGraph) (i c : Nat) (boundary : List Nat)
       (nd cnd : Node (List Char)) (sids : List Nat),
      (∀ p ∈ g.nodes, p.1 < g.nextId) →
      findNode g.nodes i = some nd →
      findNode g.nodes c = some cnd →
      [i, c] ∈ g.edges → c ≠ i →
      split g i boundary = some (sids, g') →
      ∃ lastP, sids.getLast? = some lastP ∧ [lastP, c] ∈ g'.edges ∧
        findNode g'.nodes c = some { cnd with ancestry := [] }) ∧
    split abcG 1 [1] = some ([3, 4], abcSplitG) ∧
    abcSplitG.edges = [[3, 4], [4, 2]] ∧
    (findNode abcSplitG.nodes 2).map (fun n => n.ancestry) = some [] := by
  refine ⟨?_, by decide, by decide, by decide⟩
  intro g g' i c boundary nd cnd sids hb hf hcf hedge hci hs
  obtain ⟨g4, hsids, hg', hmono, _, _, hrep, hcm⟩ := split_steps hf hs
  have hplen : (slicePieces nd.content 0 (boundary.insertionSort (· ≤ ·))).length =
      (boundary.insertionSort (· ≤ ·)).length + 1 := slicePieces_length _ _ _
  have hlast2 : sids.getLast? =
      some (g.nextId + (boundary.insertionSort (· ≤ ·)).length) := by
    rw [hsids, hplen, range'_getLast?]
  have hlastD : sids.getLastD 0 =
      g.nextId + (boundary.insertionSort (· ≤ ·)).length := by
    rw [List.getLastD_eq_getLast?, hlast2]
    rfl
  have hilt : i < g.nextId := hb _ (findNode_mem hf)
  have hline : i ≠ g.nextId + (boundary.insertionSort (· ≤ ·)).length := by omega
  have hmem4 : [g.nextId + (boundary.insertionSort (· ≤ ·)).length, c] ∈ g4.edges := by
    have h := hrep [i, c] hedge c [] rfl
    rw [hlastD] at h
    exact h
  have hst4 : (findNode g4.nodes i).isSome := by
    have happ : findNode (g.nodes ++ newPairs g.nextId
        (slicePieces nd.content 0 (boundary.insertionSort (· ≤ ·)))) i = some nd := by
      rw [findNode_append, hf]
    rw [(hcm i).2, happ]
    rfl
  obtain ⟨hre, _, hrfind⟩ := remove_node_char hst4
  subst hg'
  refine ⟨g.nextId + (boundary.insertionSort (· ≤ ·)).length, hlast2, ?_, ?_⟩
  · rw [hre, List.mem_filter]
    refine ⟨hmem4, ?_⟩
    simp only [Bool.not_eq_true']
    cases hc : ([g.nextId + (boundary.insertionSort (· ≤ ·)).length, c] : List Nat).contains i with
    | false => rfl
    | true =>
      have hmemi : i ∈ ([g.nextId + (boundary.insertionSort (· ≤ ·)).length, c] : List Nat) :=
        List.elem_iff.mp hc
      rcases List.mem_cons.mp hmemi with h1 | h1
      · exact absurd h1 hline
      · rw [List.mem_singleton] at h1
        exact absurd h1.symm hci
  · have hct : c ∈ ((g4.edges.filter (fun e => e.contains i)).map List.tail).flatten := by
      rw [List.mem_flatten]
      refine ⟨[c], ?_, List.mem_singleton.mpr rfl⟩
      rw [List.mem_map]
      refine ⟨[i, c], ?_, rfl⟩
      rw [List.mem_filter]
      exact ⟨hmono _ hedge, by simp⟩
    have hfind := hrfind c
    rw [if_neg hci, if_pos hct] at hfind
    have hcm_c := (hcm c).1
    have happc : findNode (g.nodes ++ newPairs g.nextId
        (slicePieces nd.content 0 (boundary.insertionSort (· ≤ ·)))) c = some cnd := by
      rw [findNode_append, hcf]
    rw [happc] at hcm_c
    cases hg4c : findNode g4.nodes c with
    | none => rw [hg4c] at hcm_c; simp [cmOf] at hcm_c
    | some n4 =>
      rw [hg4c] at hcm_c
      simp only [Option.map_some', Option.some_inj, cmOf, Prod.mk.injEq] at hcm_c
      rw [hfind, hg4c, Option.map_some']
      have hn : clearNode n4 = { cnd with ancestry := [] } := by
        unfold clearNode
        obtain ⟨h1, h2⟩ := hcm_c
        rw [h1, h2]
      rw [hn]

/-- Witness for C10 at a concrete input: the `"ab"` node split at offset 1
with child node 2. -/
theorem C10_witness :
    ∃ lastP, ([3, 4] : List Nat).getLast? = some lastP ∧
      [lastP, 2] ∈ abcSplitG.edges ∧
      findNode abcSplitG.nodes 2 = some ⟨"c".toList, [], []⟩ := by
  have h := C10_split_breaks_child_ancestry.1 abcG abcSplitG 1 2 [1]
    ⟨"ab".toList, [], []⟩ ⟨"c".toList, [], [[1]]⟩ [3, 4]
    (by decide) (by decide) (by decide) (by decide) (by decide) (by decide)
  exact h

/-- C6: splitting a stored node at a single offset `b` creates two fresh
nodes holding `content[:b]` and `content[b:]` and returns their ids in
content order; every ancestry entry of the original is re-added as a
hyperedge into the first piece, the pieces are linked by a length-2
hyperedge, every former child — `edge[1]` of any stored hyperedge with the
split node at its head, whatever the hyperedge's length — is re-parented
under the last piece, and the original node is removed last; splitting a
fresh `"Hello World!"` node at 6 gives `"Hello "`/`"World!"`, edge sequence
exactly `[[first, second]]`, and the original id gone, and splitting node 1
of the length-3 hyperedge `[1, 2, 3]` re-parents the former child 2 under
the last piece (`[5, 2]`). -/
theorem C6_split_single_offset :
    (∀ (g g' : SGraph) (i b : Nat) (nd : Node (List Char)) (sids : List Nat),
      (∀ p ∈ g.nodes, p.1 < g.nextId) →
      findNode g.nodes i = some nd →
      split g i [b] = some (sids, g') →
      sids = [g.nextId, g.nextId + 1] ∧
      (∃ n1, findNode g'.nodes g.nextId = some n1 ∧ n1.content = nd.content.take b) ∧
      (∃ n2, findNode g'.nodes (g.nextId + 1) = some n2 ∧
        n2.content = nd.content.drop b) ∧
      findNode g'.nodes i = none ∧
      (∀ a ∈ nd.ancestry, i ∉ a → (a.reverse ++ [g.nextId]) ∈ g'.edges) ∧
      [g.nextId, g.nextId + 1] ∈ g'.edges ∧
      (∀ ch t, (i :: ch :: t) ∈ g.edges → ch ≠ i →
        [g.nextId + 1, ch] ∈ g'.edges)) ∧
    split helloG 1 [6] = some ([2, 3], helloSplitG) ∧
    (findNode helloSplitG.nodes 2).map (fun n => n.content) = some "Hello ".toList ∧
    (findNode helloSplitG.nodes 3).map (fun n => n.content) = some "World!".toList ∧
    helloSplitG.edges = [[2, 3]] ∧
    findNode helloSplitG.nodes 1 = none ∧
    split triG 1 [1] = some ([4, 5], triSplitG) ∧
    triSplitG.edges = [[4, 5], [5, 2]] := by
  refine ⟨?_, by decide, by decide, by decide, by decide, by decide, by decide, by decide⟩
  intro g g' i b nd sids hb hf hs
  obtain ⟨g4, hsids, hg', hmono, hrew, hpairs, hrep, hcm⟩ := split_steps hf hs
  have hpieces2 : slicePieces nd.content 0 (([b] : List Nat).insertionSort (· ≤ ·)) =
      [nd.content.take b, nd.content.drop b] := by
    show slicePieces nd.content 0 [b] = _
    simp [slicePieces]
  rw [hpieces2] at hsids hcm
  have hr2 : List.range' g.nextId
      ([nd.content.take b, nd.content.drop b] : List (List Char)).length =
      [g.nextId, g.nextId + 1] := rfl
  rw [hr2] at hsids
  subst hsids
  have hilt : i < g.nextId := hb _ (findNode_mem hf)
  have hst4 : (findNode g4.nodes i).isSome := by
    have happ : findNode (g.nodes ++
        newPairs g.nextId [nd.content.take b, nd.content.drop b]) i = some nd := by
      rw [findNode_append, hf]
    rw [(hcm i).2, happ]
    rfl
  obtain ⟨hre, _, hrfind⟩ := remove_node_char hst4
  subst hg'
  have hsurv : ∀ e ∈ g4.edges, i ∉ e → e ∈ (remove_node g4 i).edges := by
    intro e he hni
    rw [hre, List.mem_filter]
    refine ⟨he, ?_⟩
    simp only [Bool.not_eq_true']
    cases hc : e.contains i with
    | false => rfl
    | true => exact absurd (List.elem_iff.mp hc) hni
  have hcontent : ∀ x px, x ≠ i →
      findNode (g.nodes ++ newPairs g.nextId [nd.content.take b, nd.content.drop b]) x =
        some ⟨px, [], []⟩ →
      ∃ n1, findNode (remove_node g4 i).nodes x = some n1 ∧ n1.content = px := by
    intro x px hxi happx
    have hfindx := hrfind x
    rw [if_neg hxi] at hfindx
    have hcmx := (hcm x).1
    rw [happx] at hcmx
    cases hg4x : findNode g4.nodes x with
    | none => rw [hg4x] at hcmx; simp [cmOf] at hcmx
    | some n4 =>
      rw [hg4x] at hcmx
      simp only [Option.map_some', Option.some_inj, cmOf, Prod.mk.injEq] at hcmx
      by_cases hcl : x ∈ ((g4.edges.filter (fun e => e.contains i)).map List.tail).flatten
      · rw [if_pos hcl, hg4x, Option.map_some'] at hfindx
        exact ⟨clearNode n4, hfindx, hcmx.1⟩
      · rw [if_neg hcl, hg4x] at hfindx
        exact ⟨n4, hfindx, hcmx.1⟩
  have hgnone : ∀ x, g.nextId ≤ x → findNode g.nodes x = none :=
    fun x hx => findNode_eq_none_of_ge hb hx
  refine ⟨rfl, ?_, ?_, ?_, ?_, ?_, ?_⟩
  · refine hcontent g.nextId (nd.content.take b) (by omega) ?_
    rw [findNode_append, hgnone g.nextId (Nat.le_refl _)]
    simp [newPairs, findNode]
  · refine hcontent (g.nextId + 1) (nd.content.drop b) (by omega) ?_
    rw [findNode_append, hgnone (g.nextId + 1) (by omega)]
    have hne1 : ¬ (g.nextId = g.nextId + 1) := by omega
    simp [newPairs, findNode, hne1]
  · have hfindi := hrfind i
    rw [if_pos rfl] at hfindi
    exact hfindi
  · intro a ha hia
    have hne : ¬ nd.ancestry.isEmpty := by
      have h0 := List.ne_nil_of_mem ha
      cases hanc : nd.ancestry with
      | nil => rw [hanc] at ha; cases ha
      | cons q qs => simp [hanc]
    have hmem := hrew hne a ha
    refine hsurv _ hmem ?_
    intro hc
    rcases List.mem_append.mp hc with hc | hc
    · exact hia (List.mem_reverse.mp hc)
    · rw [List.mem_singleton] at hc
      omega
  · have hmem := hpairs [g.nextId, g.nextId + 1] (List.mem_singleton.mpr rfl)
    refine hsurv _ hmem ?_
    intro hc
    rcases List.mem_cons.mp hc with hc | hc
    · omega
    · rw [List.mem_singleton] at hc
      omega
  · intro ch t hmem hchi
    have h4 := hrep (i :: ch :: t) hmem ch t rfl
    refine hsurv _ h4 ?_
    intro hc
    rcases List.mem_cons.mp hc with hc | hc
    · omega
    · rw [List.mem_singleton] at hc
      exact hchi hc.symm

/-- Witness for C6 at concrete inputs: the `"Hello World!"` node split at
offset 6, and the re-parenting of the former child 2 reached through the
length-3 hyperedge `[1, 2, 3]` when node 1 of `triG` is split. -/
theorem C6_witness :
    (([2, 3] : List Nat) = [helloG.nextId, helloG.nextId + 1] ∧
     (∃ n1, findNode helloSplitG.nodes helloG.nextId = some n1 ∧
       n1.content = "Hello World!".toList.take 6) ∧
     findNode helloSplitG.nodes 1 = none) ∧
    [triG.nextId + 1, 2] ∈ triSplitG.edges := by
  have h := C6_split_single_offset.1 helloG helloSplitG 1 6
    ⟨"Hello World!".toList, [], []⟩ [2, 3] (by decide) (by decide) (by decide)
  have h2 := C6_split_single_offset.1 triG triSplitG 1 1
    ⟨"a".toList, [], []⟩ [4, 5] (by decide) (by decide) (by decide)
  exact ⟨⟨by decide, h.2.1, h.2.2.2.1⟩, h2.2.2.2.2.2.2 2 [3] (by decide) (by decide)⟩

/-- C9 counterexample: `refactor` does not run to normal completion on
every graph — on a root whose only child has identical content, the
equal-content merge removes the pair and the subsequent single-child merge
looks the removed node up again (`KeyError`, modelled as `none`), at any
fuel. -/
theorem C9_counterexample_refactor_crash :
    refactor 10 eqChildG = none ∧ refactor 100 eqChildG = none := by
  refine ⟨by decide, by decide⟩

/-- C9 amended: `refactor` walks depth-first from the entry roots merging
equal-content children then only children, but it offers no terminal
guarantee: it crashes on an equal-content only child, and a non-crashing
run may keep a root-reachable node with a single child, because merge
replacements are created disconnected and removed siblings are not
revisited — on the a/b/c/d graph the run merges `b` and `d` into a fresh
disconnected `"bd"` node and ends with root 1 (`"a"`) holding the single
child 3 (`"c"`). -/
theorem C9A_refactor_no_terminal_guarantee :
    refactor 10 eqChildG = none ∧
    (refactor 10 acG).map (fun g2 =>
      (get_children g2 1, (get_roots g2).contains 1,
       (findNode g2.nodes 1).map (fun n => n.content),
       (findNode g2.nodes 3).map (fun n => n.content),
       (findNode g2.nodes 5).map (fun n => n.content))) =
      some (some [3], true, some "a".toList, some "c".toList, some "bd".toList) := by
  refine ⟨by decide, by rfl⟩

end Arachne
